import Mathlib

/-! The doubly linked list of go-collections.

A shallow embedding of `linked_list.go` and `node.go`.

Go pointers to nodes are addresses into an arena: the list carries the store
`mem` of every node allocated so far, a pointer is `Option Nat` (`none` is
`nil`), and `&Node{...}` appends a node to the store and yields its index.
Every method is a function on that state.  A method that can panic returns
`Except Fault _`; a method returning `*T` returns `Option T` (`none` is the
`nil` result).  The loops of the form `for current != nil` take a fuel
argument, since nothing in the code bounds them on an arbitrary heap.

The `size` field is a Go `int`.  It is kept as an unbounded `Int`: it only
moves by one per call and a list holds one allocated node (two pointers at
least) per unit of size, so it stays far inside the machine range.
The reader/writer lock is not part of the embedding.

The element type is `T comparable`.  Its `==` is a `BEq` instance, of which
no law is assumed: Go's `==` is not reflexive on every comparable type (a
`float64` that is not a number differs from itself).
-/

namespace Collections

/-- The node of `node.go`: two links and the payload. -/
structure Node (T : Type) where
  next : Option Nat
  prev : Option Nat
  Data : T
deriving DecidableEq

/-- Ways in which a call does not return normally. -/
inductive Fault where
  /-- A field of a `nil` pointer was read or written. -/
  | nilDeref
  /-- The snapshot `values[i]` was indexed outside of its length. -/
  | indexOutOfRange
  /-- The call `make([]T, n)` was reached with a negative `n`. -/
  | makeSliceLen
  /-- The loop did not finish within the fuel given. -/
  | outOfFuel
  /-- A pointer that is not `nil` and addresses nothing in the store; Go
  cannot build one. -/
  | badAddress
deriving DecidableEq

/-- The struct `LinkedList` of `linked_list.go` together with the store of the
nodes its pointers address. -/
structure LinkedList (T : Type) where
  head : Option Nat
  tail : Option Nat
  size : Int
  mem : List (Node T)
deriving DecidableEq

section Store

variable {T : Type}

/-- The assignment `p.next = v` for a pointer `p` that is not `nil`. -/
def setNext (mem : List (Node T)) (a : Nat) (v : Option Nat) : List (Node T) :=
  match mem[a]? with
  | some nd => mem.set a { nd with next := v }
  | none => mem

/-- The assignment `p.prev = v` for a pointer `p` that is not `nil`. -/
def setPrev (mem : List (Node T)) (a : Nat) (v : Option Nat) : List (Node T) :=
  match mem[a]? with
  | some nd => mem.set a { nd with prev := v }
  | none => mem

/-- Reading through a pointer: `nil` panics. -/
def load (mem : List (Node T)) : Option Nat → Except Fault (Node T)
  | none => .error .nilDeref
  | some a =>
    match mem[a]? with
    | some nd => .ok nd
    | none => .error .badAddress

end Store

section Methods

variable {T : Type}

def NewLinkedList : LinkedList T :=
  { head := none, tail := none, size := 0, mem := [] }

def Size (l : LinkedList T) : Int := l.size

def IsEmpty (l : LinkedList T) : Bool := Size l == 0

def AddFirst (l : LinkedList T) (data : T) : LinkedList T :=
  let node := l.mem.length
  let mem := l.mem ++ [{ next := l.head, prev := none, Data := data }]
  let mem :=
    match l.head with
    | some h => setPrev mem h (some node)
    | none => mem
  let head := some node
  let tail :=
    match l.tail with
    | none => some node
    | some t => some t
  { head := head, tail := tail, size := l.size + 1, mem := mem }

def AddLast (l : LinkedList T) (data : T) : LinkedList T :=
  let node := l.mem.length
  let mem := l.mem ++ [{ next := none, prev := l.tail, Data := data }]
  let mem :=
    match l.tail with
    | some t => setNext mem t (some node)
    | none => mem
  let tail := some node
  let head :=
    match l.head with
    | none => some node
    | some h => some h
  { head := head, tail := tail, size := l.size + 1, mem := mem }

def RemoveFirst (l : LinkedList T) : Except Fault (Option T × LinkedList T) :=
  match l.head with
  | none => .ok (none, l)
  | some h =>
    match l.mem[h]? with
    | none => .error .badAddress
    | some hd =>
      let data := hd.Data
      match hd.next with
      | none =>
        .ok (some data, { l with head := none, tail := none, size := l.size - 1 })
      | some h' =>
        .ok (some data,
          { l with head := some h', mem := setPrev l.mem h' none, size := l.size - 1 })

def RemoveLast (l : LinkedList T) : Except Fault (Option T × LinkedList T) :=
  match l.tail with
  | none => .ok (none, l)
  | some t =>
    match l.mem[t]? with
    | none => .error .badAddress
    | some tl =>
      let data := tl.Data
      match tl.prev with
      | none =>
        .ok (some data, { l with tail := none, head := none, size := l.size - 1 })
      | some t' =>
        .ok (some data,
          { l with tail := some t', mem := setNext l.mem t' none, size := l.size - 1 })

def PeekFirst (l : LinkedList T) : Except Fault (Option T) :=
  match l.head with
  | none => .ok none
  | some h =>
    match l.mem[h]? with
    | none => .error .badAddress
    | some hd => .ok (some hd.Data)

def PeekLast (l : LinkedList T) : Except Fault (Option T) :=
  match l.tail with
  | none => .ok none
  | some t =>
    match l.mem[t]? with
    | none => .error .badAddress
    | some tl => .ok (some tl.Data)

/-- The loop `for i := 0; i < index; i++ { current = current.next }`, with
`n` the number of iterations left. -/
def advance (mem : List (Node T)) : Nat → Option Nat → Except Fault (Option Nat)
  | 0, current => .ok current
  | n + 1, current =>
    match load mem current with
    | .error e => .error e
    | .ok nd => advance mem n nd.next

def Get (l : LinkedList T) (index : Int) : Except Fault (Option T) :=
  if index ≥ l.size then .ok none
  else
    match advance l.mem index.toNat l.head with
    | .error e => .error e
    | .ok current =>
      match load l.mem current with
      | .error e => .error e
      | .ok nd => .ok (some nd.Data)

def Remove (l : LinkedList T) (index : Int) : Except Fault (Option T × LinkedList T) :=
  if index ≥ l.size then .ok (none, l)
  else
    match advance l.mem index.toNat l.head with
    | .error e => .error e
    | .ok current =>
      match load l.mem current with
      | .error e => .error e
      | .ok nd =>
        -- if current.prev == nil { l.head = current.next } else { current.prev.next = current.next }
        let (head1, mem1) :=
          match nd.prev with
          | none => (nd.next, l.mem)
          | some p => (l.head, setNext l.mem p nd.next)
        -- the second test reads current again, after the store above
        match load mem1 current with
        | .error e => .error e
        | .ok nd1 =>
          let (tail2, mem2) :=
            match nd1.next with
            | none => (nd1.prev, mem1)
            | some q => (l.tail, setPrev mem1 q nd1.prev)
          match load mem2 current with
          | .error e => .error e
          | .ok nd2 =>
            .ok (some nd2.Data,
              { head := head1, tail := tail2, size := l.size - 1, mem := mem2 })

def Clear (l : LinkedList T) : LinkedList T :=
  { l with head := none, tail := none, size := 0 }

/-- The loop of `Values`: `for i := 0; current != nil; i++`. -/
def valuesLoop (mem : List (Node T)) :
    Nat → Nat → Option Nat → List T → Except Fault (List T)
  | _, _, none, values => .ok values
  | 0, _, some _, _ => .error .outOfFuel
  | fuel + 1, i, some a, values =>
    match mem[a]? with
    | none => .error .badAddress
    | some nd =>
      if i < values.length then valuesLoop mem fuel (i + 1) nd.next (values.set i nd.Data)
      else .error .indexOutOfRange

def Values [Inhabited T] (fuel : Nat) (l : LinkedList T) : Except Fault (List T) :=
  if l.size < 0 then .error .makeSliceLen
  else valuesLoop l.mem fuel 0 l.head (List.replicate l.size.toNat default)

/-- The loop of `Reverse`: swap the two links of `current`, then move to
`current.prev`, which is read after the swap. -/
def reverseLoop : Nat → List (Node T) → Option Nat → Except Fault (List (Node T))
  | _, mem, none => .ok mem
  | 0, _, some _ => .error .outOfFuel
  | fuel + 1, mem, some a =>
    match mem[a]? with
    | none => .error .badAddress
    | some nd =>
      let mem1 := mem.set a { nd with next := nd.prev, prev := nd.next }
      match mem1[a]? with
      | none => .error .badAddress
      | some nd1 => reverseLoop fuel mem1 nd1.prev

def Reverse (fuel : Nat) (l : LinkedList T) : Except Fault (LinkedList T) :=
  match reverseLoop fuel l.mem l.head with
  | .error e => .error e
  | .ok mem => .ok { l with mem := mem, head := l.tail, tail := l.head }

/-- The loop of `ForEach`.  The callback returns nothing; what it does is a
change of the caller's state `σ`. -/
def forEachLoop {σ : Type} (mem : List (Node T)) (callback : T → σ → σ) :
    Nat → Option Nat → σ → Except Fault σ
  | _, none, s => .ok s
  | 0, some _, _ => .error .outOfFuel
  | fuel + 1, some a, s =>
    match mem[a]? with
    | none => .error .badAddress
    | some nd => forEachLoop mem callback fuel nd.next (callback nd.Data s)

def ForEach {σ : Type} (fuel : Nat) (l : LinkedList T) (callback : T → σ → σ) (s : σ) :
    Except Fault (Bool × σ) :=
  match forEachLoop l.mem callback fuel l.head s with
  | .error e => .error e
  | .ok s' => .ok (true, s')

/-- The loop of `ForEachReverse`. -/
def forEachReverseLoop {σ : Type} (mem : List (Node T)) (callback : T → σ → σ) :
    Nat → Option Nat → σ → Except Fault σ
  | _, none, s => .ok s
  | 0, some _, _ => .error .outOfFuel
  | fuel + 1, some a, s =>
    match mem[a]? with
    | none => .error .badAddress
    | some nd => forEachReverseLoop mem callback fuel nd.prev (callback nd.Data s)

def ForEachReverse {σ : Type} (fuel : Nat) (l : LinkedList T) (callback : T → σ → σ) (s : σ) :
    Except Fault (Bool × σ) :=
  match forEachReverseLoop l.mem callback fuel l.tail s with
  | .error e => .error e
  | .ok s' => .ok (true, s')

/-- The loop of `Contains`.  The test `current.Data == data` is the `==` of
the element type, whatever it is: `BEq` asks no law of it. -/
def containsLoop [BEq T] (mem : List (Node T)) (data : T) :
    Nat → Option Nat → Except Fault Bool
  | _, none => .ok false
  | 0, some _ => .error .outOfFuel
  | fuel + 1, some a =>
    match mem[a]? with
    | none => .error .badAddress
    | some nd => if nd.Data == data then .ok true else containsLoop mem data fuel nd.next

def Contains [BEq T] (fuel : Nat) (l : LinkedList T) (data : T) : Except Fault Bool :=
  containsLoop l.mem data fuel l.head

/-- The loop of `IndexOf`: `for i := 0; current != nil; i++`, with the same
test `current.Data == data` as `Contains`. -/
def indexOfLoop [BEq T] (mem : List (Node T)) (data : T) :
    Nat → Int → Option Nat → Except Fault Int
  | _, _, none => .ok (-1)
  | 0, _, some _ => .error .outOfFuel
  | fuel + 1, i, some a =>
    match mem[a]? with
    | none => .error .badAddress
    | some nd => if nd.Data == data then .ok i else indexOfLoop mem data fuel (i + 1) nd.next

def IndexOf [BEq T] (fuel : Nat) (l : LinkedList T) (data : T) : Except Fault Int :=
  indexOfLoop l.mem data fuel 0 l.head

end Methods

section Invariant

variable {T : Type}

/-- The addresses `ps`, in this order, are a doubly linked chain in `mem`:
every one of them is allocated, its `next` is the following address (`nil`
for the last) and its `prev` is the preceding one (`nil` for the first). -/
def Linked (mem : List (Node T)) (ps : List Nat) : Prop :=
  ∀ k (h : k < ps.length),
    (mem[ps[k]]?).map Node.next = some ps[k + 1]? ∧
    (mem[ps[k]]?).map Node.prev = some (if k = 0 then none else ps[k - 1]?)

instance (mem : List (Node T)) (ps : List Nat) : Decidable (Linked mem ps) := by
  unfold Linked; infer_instance

/-- The list `l` holds the nodes at the addresses `ps`, from head to tail. -/
def Represents (l : LinkedList T) (ps : List Nat) : Prop :=
  Linked l.mem ps ∧ l.head = ps.head? ∧ l.tail = ps.getLast? ∧ l.size = ps.length

instance (l : LinkedList T) (ps : List Nat) : Decidable (Represents l ps) := by
  unfold Represents; infer_instance

/-- The invariants of the data model: `head` and `tail` are the two ends of
one doubly linked chain of exactly `size` nodes. -/
def WellFormed (l : LinkedList T) : Prop := ∃ ps, Represents l ps

end Invariant

section Positions

/-- The address before position `k` of `ps`, `nil` at the front. -/
def before (ps : List Nat) (k : Nat) : Option Nat := if k = 0 then none else ps[k - 1]?

end Positions

section Paths

variable {T : Type}

/-- The payloads stored at the addresses `ps`, in the order of `ps`. -/
def contents (mem : List (Node T)) (ps : List Nat) : List T :=
  ps.filterMap (fun p => (mem[p]?).map Node.Data)

/-- Following `next` from `cur` visits exactly the addresses `qs` and then
reaches `nil`. -/
def NextPath (mem : List (Node T)) : Option Nat → List Nat → Prop
  | cur, [] => cur = none
  | cur, q :: qs => cur = some q ∧ ∃ nd, mem[q]? = some nd ∧ NextPath mem nd.next qs

/-- Following `prev` from `cur` visits exactly the addresses `qs` and then
reaches `nil`. -/
def PrevPath (mem : List (Node T)) : Option Nat → List Nat → Prop
  | cur, [] => cur = none
  | cur, q :: qs => cur = some q ∧ ∃ nd, mem[q]? = some nd ∧ PrevPath mem nd.prev qs

end Paths

section Unlink

variable {T : Type}

/-- The two stores of `Remove` for a node whose fields are `nd`: the
predecessor, when there is one, gets `nd.next` as its `next`, and the
successor, when there is one, gets `nd.prev` as its `prev`. -/
def unlink (mem : List (Node T)) (nd : Node T) : List (Node T) :=
  let mem1 :=
    match nd.prev with
    | none => mem
    | some p => setNext mem p nd.next
  match nd.next with
  | none => mem1
  | some q => setPrev mem1 q nd.prev

/-- The store after the loop of `Reverse` has run over the addresses `qs`:
the two links of each of them are exchanged, in turn. -/
def swapAll (mem : List (Node T)) : List Nat → List (Node T)
  | [] => mem
  | q :: qs =>
    match mem[q]? with
    | none => swapAll mem qs
    | some nd => swapAll (mem.set q { nd with next := nd.prev, prev := nd.next }) qs

end Unlink

section Calls

variable {T : Type}

/-- A call of one of the four methods that work at an end of the list. -/
inductive EndCall (T : Type) where
  | addFirst (data : T)
  | addLast (data : T)
  | removeFirst
  | removeLast
deriving DecidableEq

/-- The number of `AddFirst` and `AddLast` calls in a sequence. -/
def countAdds : List (EndCall T) → Nat
  | [] => 0
  | .addFirst _ :: cs => countAdds cs + 1
  | .addLast _ :: cs => countAdds cs + 1
  | .removeFirst :: cs => countAdds cs
  | .removeLast :: cs => countAdds cs

/-- The number of results that are not `nil`. -/
def countPresent : List (Option T) → Nat
  | [] => 0
  | none :: rs => countPresent rs
  | some _ :: rs => countPresent rs + 1

/-- Make the calls in order.  The outcome is the list after the last call
and the results of the `RemoveFirst` and `RemoveLast` calls, in the order of
the calls. -/
def runCalls : LinkedList T → List (EndCall T) → Except Fault (LinkedList T × List (Option T))
  | l, [] => .ok (l, [])
  | l, .addFirst data :: cs => runCalls (AddFirst l data) cs
  | l, .addLast data :: cs => runCalls (AddLast l data) cs
  | l, .removeFirst :: cs =>
    match RemoveFirst l with
    | .error e => .error e
    | .ok (r, l') =>
      match runCalls l' cs with
      | .error e => .error e
      | .ok (l'', rs) => .ok (l'', r :: rs)
  | l, .removeLast :: cs =>
    match RemoveLast l with
    | .error e => .error e
    | .ok (r, l') =>
      match runCalls l' cs with
      | .error e => .error e
      | .ok (l'', rs) => .ok (l'', r :: rs)

/-- The lists that calls of the mutating methods build from `NewLinkedList`,
`Remove` being called with an index that is not negative. -/
inductive Reachable : LinkedList T → Prop where
  | new : Reachable NewLinkedList
  | addFirst {l : LinkedList T} (data : T) : Reachable l → Reachable (AddFirst l data)
  | addLast {l : LinkedList T} (data : T) : Reachable l → Reachable (AddLast l data)
  | removeFirst {l l' : LinkedList T} {r : Option T} :
      Reachable l → RemoveFirst l = .ok (r, l') → Reachable l'
  | removeLast {l l' : LinkedList T} {r : Option T} :
      Reachable l → RemoveLast l = .ok (r, l') → Reachable l'
  | remove {l l' : LinkedList T} {r : Option T} (index : Int) :
      Reachable l → 0 ≤ index → Remove l index = .ok (r, l') → Reachable l'
  | clear {l : LinkedList T} : Reachable l → Reachable (Clear l)
  | reverse {l l' : LinkedList T} (fuel : Nat) :
      Reachable l → Reverse fuel l = .ok l' → Reachable l'

/-- The visitor that appends what it is given to the sequence seen so far. -/
def collect (data : T) (seen : List T) : List T := seen ++ [data]

end Calls

section Samples

/-- The list of the sample program after `AddFirst` of 20 and then of 21. -/
def sampleTwo : LinkedList Nat := AddFirst (AddFirst NewLinkedList 20) 21

/-- The list of the sample program after `AddFirst` of 20, 21 and 22. -/
def sampleThree : LinkedList Nat := AddFirst (AddFirst (AddFirst NewLinkedList 20) 21) 22

end Samples

section Rendering

variable {T : Type}

/-- The loop of `String`: write the rendering of `current.Data`, move on, and
write the separator when there is a node left. -/
def stringLoop (mem : List (Node T)) (render : T → String) :
    Nat → Option Nat → String → Except Fault String
  | _, none, buffer => .ok buffer
  | 0, some _, _ => .error .outOfFuel
  | fuel + 1, some a, buffer =>
    match mem[a]? with
    | none => .error .badAddress
    | some nd =>
      let buffer := buffer ++ render nd.Data
      match nd.next with
      | none => stringLoop mem render fuel none buffer
      | some b => stringLoop mem render fuel (some b) (buffer ++ " -> ")

/-- The method `String`.  The formatting `fmt.Sprintf("%v", _)` of the
standard library is the parameter `render`. -/
def LinkedList.String (fuel : Nat) (render : T → String) (l : LinkedList T) :
    Except Fault String :=
  stringLoop l.mem render fuel l.head ""

/-- The struct `person` of the sample program. -/
structure person where
  name : String
  age : Nat
deriving DecidableEq

instance : Inhabited person := ⟨{ name := "", age := 0 }⟩

/-- The three persons of the sample program, added with `AddFirst`. -/
def samplePeople : LinkedList person :=
  AddFirst (AddFirst (AddFirst NewLinkedList { name := "Muhammad", age := 20 })
    { name := "Ahmed", age := 21 }) { name := "Basim", age := 22 }

/-- The values of Go's `float64` that are needed here: the one that is not a
number, and the whole numbers. -/
inductive float64 where
  | NaN
  | num (value : Int)
deriving DecidableEq

/-- The `==` of `float64`: numbers compare by value and `NaN` is equal to
nothing, itself included. -/
instance : BEq float64 where
  beq
    | .num x, .num y => x == y
    | _, _ => false

instance : Inhabited float64 := ⟨.num 0⟩

/-- A new `LinkedList[float64]` after `AddFirst(NaN)`. -/
def sampleNaN : LinkedList float64 := AddFirst NewLinkedList float64.NaN

end Rendering

/-! ## Lemmas -/

section StoreLemmas

variable {T : Type}

theorem getElem?_setNext (mem : List (Node T)) (a b : Nat) (v : Option Nat) :
    (setNext mem a v)[b]? =
      if b = a then (mem[a]?).map (fun nd => { nd with next := v }) else mem[b]? := by
  unfold setNext
  cases h : mem[a]? with
  | none =>
    by_cases hb : b = a
    · subst hb; simp [h]
    · simp [hb]
  | some nd =>
    by_cases hb : b = a
    · subst hb
      have hlt : b < mem.length := by
        rcases List.getElem?_eq_some_iff.mp h with ⟨hlt, _⟩; exact hlt
      simp [List.getElem?_set, hlt]
    · have hne : a ≠ b := fun e => hb e.symm
      simp [hb, List.getElem?_set_ne hne]

theorem getElem?_setPrev (mem : List (Node T)) (a b : Nat) (v : Option Nat) :
    (setPrev mem a v)[b]? =
      if b = a then (mem[a]?).map (fun nd => { nd with prev := v }) else mem[b]? := by
  unfold setPrev
  cases h : mem[a]? with
  | none =>
    by_cases hb : b = a
    · subst hb; simp [h]
    · simp [hb]
  | some nd =>
    by_cases hb : b = a
    · subst hb
      have hlt : b < mem.length := by
        rcases List.getElem?_eq_some_iff.mp h with ⟨hlt, _⟩; exact hlt
      simp [List.getElem?_set, hlt]
    · have hne : a ≠ b := fun e => hb e.symm
      simp [hb, List.getElem?_set_ne hne]

theorem length_setNext (mem : List (Node T)) (a : Nat) (v : Option Nat) :
    (setNext mem a v).length = mem.length := by
  unfold setNext
  cases mem[a]? <;> simp

theorem length_setPrev (mem : List (Node T)) (a : Nat) (v : Option Nat) :
    (setPrev mem a v).length = mem.length := by
  unfold setPrev
  cases mem[a]? <;> simp

theorem getElem?_alloc (mem : List (Node T)) (nd : Node T) (b : Nat) :
    (mem ++ [nd])[b]? = if b = mem.length then some nd else mem[b]? := by
  by_cases hb : b = mem.length
  · subst hb; simp
  · simp only [hb, if_false]
    by_cases hlt : b < mem.length
    · exact List.getElem?_append_left hlt
    · have h1 : mem.length + 1 ≤ b := by omega
      rw [List.getElem?_eq_none (by simp; omega), List.getElem?_eq_none (by omega)]

end StoreLemmas

section ChainLemmas

variable {T : Type}

theorem linked_iff (mem : List (Node T)) (ps : List Nat) :
    Linked mem ps ↔
      ∀ k p, ps[k]? = some p →
        ∃ nd, mem[p]? = some nd ∧ nd.next = ps[k + 1]? ∧ nd.prev = before ps k := by
  unfold Linked before
  constructor
  · intro h k p hk
    rcases List.getElem?_eq_some_iff.mp hk with ⟨hlt, rfl⟩
    rcases h k hlt with ⟨h1, h2⟩
    cases hm : mem[ps[k]]? with
    | none => simp [hm] at h1
    | some nd =>
      simp only [hm, Option.map_some', Option.some.injEq] at h1 h2
      exact ⟨nd, rfl, h1, h2⟩
  · intro h k hlt
    rcases h k ps[k] (List.getElem?_eq_getElem hlt) with ⟨nd, hm, h1, h2⟩
    simp [hm, h1, h2]

theorem Linked.node {mem : List (Node T)} {ps : List Nat} (h : Linked mem ps)
    {k p : Nat} (hk : ps[k]? = some p) :
    ∃ nd, mem[p]? = some nd ∧ nd.next = ps[k + 1]? ∧ nd.prev = before ps k :=
  (linked_iff mem ps).mp h k p hk

theorem Linked.lt_length {mem : List (Node T)} {ps : List Nat} (h : Linked mem ps)
    {p : Nat} (hp : p ∈ ps) : p < mem.length := by
  rcases List.getElem?_of_mem hp with ⟨k, hk⟩
  rcases h.node hk with ⟨nd, hm, _, _⟩
  exact (List.getElem?_eq_some_iff.mp hm).1

theorem Linked.before_eq {mem : List (Node T)} {ps : List Nat} (h : Linked mem ps)
    {i j p : Nat} (hi : ps[i]? = some p) (hj : ps[j]? = some p) :
    before ps i = before ps j := by
  rcases h.node hi with ⟨nd, hm, _, hp⟩
  rcases h.node hj with ⟨nd', hm', _, hp'⟩
  rw [hm] at hm'
  cases hm'
  rw [← hp, ← hp']

theorem Linked.getElem?_ne {mem : List (Node T)} {ps : List Nat} (h : Linked mem ps) :
    ∀ i j, i < j → j < ps.length → ps[i]? ≠ ps[j]? := by
  intro i
  induction i with
  | zero =>
    intro j hij hj he
    have hi : 0 < ps.length := by omega
    have hb := h.before_eq (List.getElem?_eq_getElem hi)
      (he.symm.trans (List.getElem?_eq_getElem hi))
    unfold before at hb
    have hj1 : j - 1 < ps.length := by omega
    simp [show j ≠ 0 by omega, List.getElem?_eq_getElem hj1] at hb
  | succ i ih =>
    intro j hij hj he
    have hi : i + 1 < ps.length := by omega
    have hb := h.before_eq (List.getElem?_eq_getElem hi)
      (he.symm.trans (List.getElem?_eq_getElem hi))
    unfold before at hb
    simp [show j ≠ 0 by omega] at hb
    exact ih (j - 1) (by omega) (by omega) hb

theorem Linked.nodup {mem : List (Node T)} {ps : List Nat} (h : Linked mem ps) : ps.Nodup :=
  List.nodup_iff_getElem?_ne_getElem?.mpr h.getElem?_ne

theorem Linked.index_eq {mem : List (Node T)} {ps : List Nat} (h : Linked mem ps)
    {i j p : Nat} (hi : ps[i]? = some p) (hj : ps[j]? = some p) : i = j := by
  have hil : i < ps.length := (List.getElem?_eq_some_iff.mp hi).1
  have hjl : j < ps.length := (List.getElem?_eq_some_iff.mp hj).1
  rcases Nat.lt_trichotomy i j with hlt | heq | hgt
  · exact absurd (hi.trans hj.symm) (h.getElem?_ne i j hlt hjl)
  · exact heq
  · exact absurd (hj.trans hi.symm) (h.getElem?_ne j i hgt hil)

end ChainLemmas

section PathLemmas

variable {T : Type}

theorem contents_nil (mem : List (Node T)) : contents mem [] = [] := rfl

theorem contents_cons {mem : List (Node T)} {q : Nat} {nd : Node T} (h : mem[q]? = some nd)
    (qs : List Nat) : contents mem (q :: qs) = nd.Data :: contents mem qs := by
  simp [contents, List.filterMap_cons, h]

theorem contents_append (mem : List (Node T)) (ps qs : List Nat) :
    contents mem (ps ++ qs) = contents mem ps ++ contents mem qs := by
  simp [contents, List.filterMap_append]

theorem contents_reverse (mem : List (Node T)) (ps : List Nat) :
    contents mem ps.reverse = (contents mem ps).reverse := by
  simp [contents, List.filterMap_reverse]

theorem contents_congr {mem mem' : List (Node T)} {ps : List Nat}
    (h : ∀ p ∈ ps, (mem'[p]?).map Node.Data = (mem[p]?).map Node.Data) :
    contents mem' ps = contents mem ps := by
  induction ps with
  | nil => rfl
  | cons p ps ih =>
    have hp := h p (List.mem_cons_self _ _)
    have ih' := ih (fun q hq => h q (List.mem_cons_of_mem _ hq))
    simp only [contents, List.filterMap_cons] at ih' ⊢
    rw [hp, ih']

theorem Linked.contents_eq_map {mem : List (Node T)} {ps : List Nat} (h : Linked mem ps) :
    (contents mem ps).map some = ps.map (fun p => (mem[p]?).map Node.Data) := by
  have hall : ∀ p ∈ ps, ∃ nd, mem[p]? = some nd := by
    intro p hp
    rcases List.getElem?_of_mem hp with ⟨k, hk⟩
    rcases h.node hk with ⟨nd, hm, _, _⟩
    exact ⟨nd, hm⟩
  clear h
  induction ps with
  | nil => rfl
  | cons p ps ih =>
    rcases hall p (List.mem_cons_self _ _) with ⟨nd, hm⟩
    rw [contents_cons hm]
    simp only [List.map_cons, hm, Option.map_some']
    rw [ih (fun q hq => hall q (List.mem_cons_of_mem _ hq))]

theorem Linked.length_contents {mem : List (Node T)} {ps : List Nat} (h : Linked mem ps) :
    (contents mem ps).length = ps.length := by
  have := congrArg List.length h.contents_eq_map
  simpa using this

theorem Linked.getElem?_contents {mem : List (Node T)} {ps : List Nat} (h : Linked mem ps)
    (k : Nat) : (contents mem ps)[k]? = (ps[k]?).bind (fun p => (mem[p]?).map Node.Data) := by
  have := congrArg (fun xs => xs[k]?) h.contents_eq_map
  simp only [List.getElem?_map] at this
  cases hk : ps[k]? with
  | none =>
    rw [hk] at this
    cases hc : (contents mem ps)[k]? with
    | none => rfl
    | some v => rw [hc] at this; simp at this
  | some p =>
    rw [hk] at this
    simp only [Option.map_some', Option.some_bind] at this ⊢
    cases hc : (contents mem ps)[k]? with
    | none => rw [hc] at this; simp at this
    | some v => rw [hc] at this; simpa using this

theorem Linked.nextPath_drop {mem : List (Node T)} {ps : List Nat} (h : Linked mem ps) :
    ∀ n k, n = ps.length - k → NextPath mem ps[k]? (ps.drop k) := by
  intro n
  induction n with
  | zero =>
    intro k hk
    have hle : ps.length ≤ k := by omega
    rw [List.drop_of_length_le hle, List.getElem?_eq_none hle]
    rfl
  | succ n ih =>
    intro k hk
    have hlt : k < ps.length := by omega
    rw [List.drop_eq_getElem_cons hlt, List.getElem?_eq_getElem hlt]
    rcases h.node (List.getElem?_eq_getElem hlt) with ⟨nd, hm, hn, _⟩
    refine ⟨rfl, nd, hm, ?_⟩
    rw [hn]
    exact ih (k + 1) (by omega)

theorem Linked.nextPath {mem : List (Node T)} {ps : List Nat} (h : Linked mem ps) :
    NextPath mem ps.head? ps := by
  have := h.nextPath_drop ps.length 0 rfl
  rwa [List.drop_zero, ← List.head?_eq_getElem?] at this

theorem Linked.prevPath_take {mem : List (Node T)} {ps : List Nat} (h : Linked mem ps) :
    ∀ k, k < ps.length → PrevPath mem ps[k]? (ps.take (k + 1)).reverse := by
  intro k
  induction k with
  | zero =>
    intro hlt
    rcases h.node (List.getElem?_eq_getElem hlt) with ⟨nd, hm, _, hp⟩
    have e : (ps.take 1).reverse = [ps[0]] := by
      cases ps with
      | nil => simp at hlt
      | cons a as => simp
    rw [e, List.getElem?_eq_getElem hlt]
    refine ⟨rfl, nd, hm, ?_⟩
    rw [hp]
    rfl
  | succ k ih =>
    intro hlt
    rcases h.node (List.getElem?_eq_getElem hlt) with ⟨nd, hm, _, hp⟩
    have e : (ps.take (k + 1 + 1)).reverse = ps[k + 1] :: (ps.take (k + 1)).reverse := by
      rw [List.take_succ, List.getElem?_eq_getElem hlt]
      simp
    rw [e, List.getElem?_eq_getElem hlt]
    refine ⟨rfl, nd, hm, ?_⟩
    rw [hp]
    have := ih (by omega)
    simpa [before] using this

theorem Linked.prevPath {mem : List (Node T)} {ps : List Nat} (h : Linked mem ps) :
    PrevPath mem ps.getLast? ps.reverse := by
  cases hps : ps.length with
  | zero =>
    have : ps = [] := List.length_eq_zero.mp hps
    subst this
    rfl
  | succ n =>
    have := h.prevPath_take n (by omega)
    rw [List.getLast?_eq_getElem?, hps]
    have e : ps.take (n + 1) = ps := List.take_of_length_le (by omega)
    rw [e] at this
    simpa using this

theorem advance_linked {mem : List (Node T)} {ps : List Nat} (h : Linked mem ps) :
    ∀ n k, k + n ≤ ps.length → advance mem n ps[k]? = .ok ps[k + n]? := by
  intro n
  induction n with
  | zero => intro k _; rfl
  | succ n ih =>
    intro k hk
    have hlt : k < ps.length := by omega
    rcases h.node (List.getElem?_eq_getElem hlt) with ⟨nd, hm, hn, _⟩
    rw [List.getElem?_eq_getElem hlt]
    simp only [advance, load, hm, hn]
    rw [ih (k + 1) (by omega)]
    congr 2
    omega

end PathLemmas

section LoopLemmas

variable {T : Type}

theorem forEachLoop_path {σ : Type} {mem : List (Node T)} (callback : T → σ → σ) :
    ∀ (qs : List Nat) (cur : Option Nat) (fuel : Nat) (s : σ),
      NextPath mem cur qs → qs.length ≤ fuel →
      forEachLoop mem callback fuel cur s =
        .ok ((contents mem qs).foldl (fun acc v => callback v acc) s) := by
  intro qs
  induction qs with
  | nil =>
    intro cur fuel s hp _
    have : cur = none := hp
    subst this
    cases fuel <;> rfl
  | cons q qs ih =>
    intro cur fuel s hp hf
    rcases hp with ⟨rfl, nd, hm, hp'⟩
    cases fuel with
    | zero => simp at hf
    | succ fuel =>
      simp only [forEachLoop, hm]
      rw [ih nd.next fuel _ hp' (by simpa using hf), contents_cons hm]
      rfl

theorem forEachReverseLoop_path {σ : Type} {mem : List (Node T)} (callback : T → σ → σ) :
    ∀ (qs : List Nat) (cur : Option Nat) (fuel : Nat) (s : σ),
      PrevPath mem cur qs → qs.length ≤ fuel →
      forEachReverseLoop mem callback fuel cur s =
        .ok ((contents mem qs).foldl (fun acc v => callback v acc) s) := by
  intro qs
  induction qs with
  | nil =>
    intro cur fuel s hp _
    have : cur = none := hp
    subst this
    cases fuel <;> rfl
  | cons q qs ih =>
    intro cur fuel s hp hf
    rcases hp with ⟨rfl, nd, hm, hp'⟩
    cases fuel with
    | zero => simp at hf
    | succ fuel =>
      simp only [forEachReverseLoop, hm]
      rw [ih nd.prev fuel _ hp' (by simpa using hf), contents_cons hm]
      rfl

theorem valuesLoop_path {mem : List (Node T)} :
    ∀ (qs : List Nat) (cur : Option Nat) (fuel i : Nat) (values : List T),
      NextPath mem cur qs → qs.length ≤ fuel → i + qs.length ≤ values.length →
      valuesLoop mem fuel i cur values =
        .ok (values.take i ++ contents mem qs ++ values.drop (i + qs.length)) := by
  intro qs
  induction qs with
  | nil =>
    intro cur fuel i values hp _ _
    have : cur = none := hp
    subst this
    have e : valuesLoop mem fuel i none values = .ok values := by cases fuel <;> rfl
    rw [e, contents_nil]
    simp
  | cons q qs ih =>
    intro cur fuel i values hp hf hi
    rcases hp with ⟨rfl, nd, hm, hp'⟩
    cases fuel with
    | zero => simp at hf
    | succ fuel =>
      have hlt : i < values.length := by simp at hi; omega
      simp only [valuesLoop, hm, hlt, if_true]
      rw [ih nd.next fuel (i + 1) _ hp' (by simpa using hf) (by simp at hi ⊢; omega),
        contents_cons hm]
      congr 1
      have hA : (values.take i).length = i := by simp; omega
      have e1 : values.set i nd.Data = (values.take i ++ [nd.Data]) ++ values.drop (i + 1) := by
        rw [List.set_eq_take_append_cons_drop, if_pos hlt]
        simp
      have e2 : (values.set i nd.Data).take (i + 1) = values.take i ++ [nd.Data] := by
        rw [e1]
        exact List.take_left' (by simp [hA])
      have e3 : (values.set i nd.Data).drop (i + 1 + qs.length) =
          values.drop (i + (q :: qs).length) := by
        rw [e1]
        have hl : (values.take i ++ [nd.Data]).length = i + 1 := by simp [hA]
        rw [← hl, List.drop_append, List.drop_drop]
        congr 1
        simp
        omega
      rw [e2, e3]
      simp

theorem containsLoop_path [BEq T] {mem : List (Node T)} (data : T) :
    ∀ (qs : List Nat) (cur : Option Nat) (fuel : Nat),
      NextPath mem cur qs → qs.length ≤ fuel →
      containsLoop mem data fuel cur = .ok ((contents mem qs).any (fun e => e == data)) := by
  intro qs
  induction qs with
  | nil =>
    intro cur fuel hp _
    have : cur = none := hp
    subst this
    cases fuel <;> simp [containsLoop, contents]
  | cons q qs ih =>
    intro cur fuel hp hf
    rcases hp with ⟨rfl, nd, hm, hp'⟩
    cases fuel with
    | zero => simp at hf
    | succ fuel =>
      simp only [containsLoop, hm, contents_cons hm, List.any_cons]
      cases hd : nd.Data == data with
      | true => simp
      | false =>
        rw [if_neg (by simp), ih nd.next fuel hp' (by simpa using hf)]
        simp

theorem indexOfLoop_path [BEq T] {mem : List (Node T)} (data : T) :
    ∀ (qs : List Nat) (cur : Option Nat) (fuel : Nat) (i : Int),
      NextPath mem cur qs → qs.length ≤ fuel →
      indexOfLoop mem data fuel i cur =
        .ok (if (contents mem qs).any (fun e => e == data) = true then
            i + ((contents mem qs).findIdx (fun e => e == data) : Nat)
          else -1) := by
  intro qs
  induction qs with
  | nil =>
    intro cur fuel i hp _
    have : cur = none := hp
    subst this
    cases fuel <;> simp [indexOfLoop, contents]
  | cons q qs ih =>
    intro cur fuel i hp hf
    rcases hp with ⟨rfl, nd, hm, hp'⟩
    cases fuel with
    | zero => simp at hf
    | succ fuel =>
      simp only [indexOfLoop, hm, contents_cons hm, List.any_cons, List.findIdx_cons]
      cases hd : nd.Data == data with
      | true => simp
      | false =>
        rw [if_neg (by simp), ih nd.next fuel (i + 1) hp' (by simpa using hf)]
        simp only [Bool.false_or, cond_false]
        by_cases hany : (contents mem qs).any (fun e => e == data) = true
        · rw [if_pos hany, if_pos hany]
          congr 1
          push_cast
          omega
        · rw [if_neg hany, if_neg hany]

end LoopLemmas

section ReadLemmas

variable {T : Type}

theorem Represents.size_nonneg {l : LinkedList T} {ps : List Nat} (h : Represents l ps) :
    0 ≤ l.size := by
  rw [h.2.2.2]; exact Int.ofNat_nonneg _

theorem Represents.toNat_size {l : LinkedList T} {ps : List Nat} (h : Represents l ps) :
    l.size.toNat = ps.length := by
  rw [h.2.2.2]; simp

theorem Values_represents [Inhabited T] {l : LinkedList T} {ps : List Nat}
    (h : Represents l ps) {fuel : Nat} (hf : ps.length ≤ fuel) :
    Values fuel l = .ok (contents l.mem ps) := by
  unfold Values
  rw [if_neg (by have := h.size_nonneg; omega), h.2.1, h.toNat_size]
  rw [valuesLoop_path ps _ fuel 0 _ h.1.nextPath hf (by simp)]
  simp [h.1.length_contents]

theorem ForEach_represents {σ : Type} {l : LinkedList T} {ps : List Nat}
    (h : Represents l ps) {fuel : Nat} (hf : ps.length ≤ fuel) (callback : T → σ → σ) (s : σ) :
    ForEach fuel l callback s =
      .ok (true, (contents l.mem ps).foldl (fun acc v => callback v acc) s) := by
  unfold ForEach
  rw [h.2.1, forEachLoop_path callback ps _ fuel s h.1.nextPath hf]

theorem ForEachReverse_represents {σ : Type} {l : LinkedList T} {ps : List Nat}
    (h : Represents l ps) {fuel : Nat} (hf : ps.length ≤ fuel) (callback : T → σ → σ) (s : σ) :
    ForEachReverse fuel l callback s =
      .ok (true, (contents l.mem ps).reverse.foldl (fun acc v => callback v acc) s) := by
  unfold ForEachReverse
  rw [h.2.2.1, forEachReverseLoop_path callback ps.reverse _ fuel s h.1.prevPath (by simpa using hf),
    contents_reverse]

theorem Contains_represents [BEq T] {l : LinkedList T} {ps : List Nat}
    (h : Represents l ps) {fuel : Nat} (hf : ps.length ≤ fuel) (data : T) :
    Contains fuel l data = .ok ((contents l.mem ps).any (fun e => e == data)) := by
  unfold Contains
  rw [h.2.1, containsLoop_path data ps _ fuel h.1.nextPath hf]

theorem IndexOf_represents [BEq T] {l : LinkedList T} {ps : List Nat}
    (h : Represents l ps) {fuel : Nat} (hf : ps.length ≤ fuel) (data : T) :
    IndexOf fuel l data =
      .ok (if (contents l.mem ps).any (fun e => e == data) = true then
          ((contents l.mem ps).findIdx (fun e => e == data) : Nat)
        else -1) := by
  unfold IndexOf
  rw [h.2.1, indexOfLoop_path data ps _ fuel 0 h.1.nextPath hf]
  simp

theorem advance_represents {l : LinkedList T} {ps : List Nat} (h : Represents l ps)
    {n : Nat} (hn : n ≤ ps.length) : advance l.mem n l.head = .ok ps[n]? := by
  have := advance_linked h.1 n 0 (by omega)
  rw [h.2.1, List.head?_eq_getElem?, this]
  simp

theorem Get_represents {l : LinkedList T} {ps : List Nat} (h : Represents l ps)
    {i : Nat} (hi : i < ps.length) : Get l (i : Int) = .ok (contents l.mem ps)[i]? := by
  unfold Get
  have hsz := h.2.2.2
  rw [if_neg (by omega), Int.toNat_ofNat, advance_represents h (by omega)]
  rcases h.1.node (List.getElem?_eq_getElem hi) with ⟨nd, hm, _, _⟩
  simp only [List.getElem?_eq_getElem hi, load, hm]
  rw [h.1.getElem?_contents, List.getElem?_eq_getElem hi]
  simp [hm]

end ReadLemmas

section AddLemmas

variable {T : Type}

theorem Linked.getElem?_eq_iff {mem : List (Node T)} {ps : List Nat} (h : Linked mem ps)
    {i j p q : Nat} (hi : ps[i]? = some p) (hj : ps[j]? = some q) : p = q ↔ i = j := by
  constructor
  · intro e; subst e; exact h.index_eq hi hj
  · intro e; subst e; rw [hi] at hj; exact Option.some.inj hj

theorem Represents_new : Represents (NewLinkedList : LinkedList T) [] := by
  refine ⟨?_, rfl, rfl, rfl⟩
  intro k hk
  simp at hk

theorem Represents_Clear (l : LinkedList T) : Represents (Clear l) [] := by
  refine ⟨?_, rfl, rfl, rfl⟩
  intro k hk
  simp at hk

theorem Represents.head_eq {l : LinkedList T} {ps : List Nat} (h : Represents l ps) :
    l.head = ps[0]? := by
  rw [h.2.1, List.head?_eq_getElem?]

theorem Represents.tail_eq {l : LinkedList T} {ps : List Nat} (h : Represents l ps) :
    l.tail = ps[ps.length - 1]? := by
  rw [h.2.2.1, List.getLast?_eq_getElem?]

theorem getElem?_AddFirst (l : LinkedList T) (data : T) (b : Nat) :
    (AddFirst l data).mem[b]? =
      if l.head = some b then
        ((l.mem ++ [{ next := l.head, prev := none, Data := data }])[b]?).map
          (fun nd => { nd with prev := some l.mem.length })
      else (l.mem ++ [{ next := l.head, prev := none, Data := data }])[b]? := by
  unfold AddFirst
  cases hh : l.head with
  | none => simp
  | some h =>
    simp only [getElem?_setPrev, Option.some.injEq]
    by_cases hb : b = h
    · subst hb; simp
    · have : ¬ h = b := fun e => hb e.symm
      simp [hb, this]

theorem Represents_AddFirst {l : LinkedList T} {ps : List Nat} (h : Represents l ps)
    (data : T) :
    Represents (AddFirst l data) (l.mem.length :: ps) ∧
      contents (AddFirst l data).mem (l.mem.length :: ps) = data :: contents l.mem ps := by
  have hl := h.1
  have hfresh : ∀ p ∈ ps, p ≠ l.mem.length := fun p hp => Nat.ne_of_lt (hl.lt_length hp)
  have hhead : l.head ≠ some l.mem.length := by
    intro e
    rw [h.head_eq] at e
    exact hfresh _ (List.getElem?_mem e) rfl
  have hnew : (AddFirst l data).mem[l.mem.length]? =
      some { next := l.head, prev := none, Data := data } := by
    rw [getElem?_AddFirst, if_neg hhead, getElem?_alloc, if_pos rfl]
  have hold : ∀ k p, ps[k]? = some p → ∀ nd, l.mem[p]? = some nd →
      (AddFirst l data).mem[p]? =
        some (if k = 0 then { nd with prev := some l.mem.length } else nd) := by
    intro k p hk nd hm
    have hpf : p ≠ l.mem.length := hfresh p (List.getElem?_mem hk)
    rw [getElem?_AddFirst, getElem?_alloc, if_neg hpf, hm, h.head_eq]
    by_cases hk0 : k = 0
    · subst hk0
      rw [if_pos hk, if_pos rfl]
      rfl
    · have : ps[0]? ≠ some p := fun e => hk0 (hl.index_eq hk e)
      rw [if_neg this, if_neg hk0]
  refine ⟨⟨?_, rfl, ?_, ?_⟩, ?_⟩
  · rw [linked_iff]
    intro k p hk
    cases k with
    | zero =>
      simp only [List.getElem?_cons_zero, Option.some.injEq] at hk
      subst hk
      refine ⟨_, hnew, ?_, rfl⟩
      simp [h.head_eq]
    | succ k =>
      simp only [List.getElem?_cons_succ] at hk
      rcases hl.node hk with ⟨nd, hm, hn, hp⟩
      refine ⟨_, hold k p hk nd hm, ?_, ?_⟩
      · by_cases hk0 : k = 0
        · simp [hk0, hn]
        · simp [hk0, hn]
      · by_cases hk0 : k = 0
        · subst hk0; simp [before]
        · obtain ⟨k', rfl⟩ := Nat.exists_eq_succ_of_ne_zero hk0
          simp [before, hp]
  · have e : (AddFirst l data).tail =
        match l.tail with
        | none => some l.mem.length
        | some t => some t := rfl
    rw [e, h.2.2.1, List.getLast?_cons]
    cases ps.getLast? <;> rfl
  · have e : (AddFirst l data).size = l.size + 1 := rfl
    rw [e, h.2.2.2]
    simp
  · rw [contents_cons hnew]
    congr 1
    apply contents_congr
    intro p hp
    rcases List.getElem?_of_mem hp with ⟨k, hk⟩
    rcases hl.node hk with ⟨nd, hm, _, _⟩
    rw [hold k p hk nd hm, hm]
    by_cases hk0 : k = 0 <;> simp [hk0]

theorem getElem?_AddLast (l : LinkedList T) (data : T) (b : Nat) :
    (AddLast l data).mem[b]? =
      if l.tail = some b then
        ((l.mem ++ [{ next := none, prev := l.tail, Data := data }])[b]?).map
          (fun nd => { nd with next := some l.mem.length })
      else (l.mem ++ [{ next := none, prev := l.tail, Data := data }])[b]? := by
  unfold AddLast
  cases hh : l.tail with
  | none => simp
  | some h =>
    simp only [getElem?_setNext, Option.some.injEq]
    by_cases hb : b = h
    · subst hb; simp
    · have : ¬ h = b := fun e => hb e.symm
      simp [hb, this]

theorem Represents_AddLast {l : LinkedList T} {ps : List Nat} (h : Represents l ps)
    (data : T) :
    Represents (AddLast l data) (ps ++ [l.mem.length]) ∧
      contents (AddLast l data).mem (ps ++ [l.mem.length]) = contents l.mem ps ++ [data] := by
  have hl := h.1
  have hfresh : ∀ p ∈ ps, p ≠ l.mem.length := fun p hp => Nat.ne_of_lt (hl.lt_length hp)
  have htail : l.tail ≠ some l.mem.length := by
    intro e
    rw [h.tail_eq] at e
    exact hfresh _ (List.getElem?_mem e) rfl
  have hnew : (AddLast l data).mem[l.mem.length]? =
      some { next := none, prev := l.tail, Data := data } := by
    rw [getElem?_AddLast, if_neg htail, getElem?_alloc, if_pos rfl]
  have hold : ∀ k p, ps[k]? = some p → ∀ nd, l.mem[p]? = some nd →
      (AddLast l data).mem[p]? =
        some (if k + 1 = ps.length then { nd with next := some l.mem.length } else nd) := by
    intro k p hk nd hm
    have hpf : p ≠ l.mem.length := hfresh p (List.getElem?_mem hk)
    have hklt : k < ps.length := (List.getElem?_eq_some_iff.mp hk).1
    rw [getElem?_AddLast, getElem?_alloc, if_neg hpf, hm, h.tail_eq]
    by_cases hk0 : k + 1 = ps.length
    · have : ps.length - 1 = k := by omega
      rw [this, if_pos hk, if_pos hk0]
      rfl
    · have : ps[ps.length - 1]? ≠ some p := fun e => hk0 (by have := hl.index_eq hk e; omega)
      rw [if_neg this, if_neg hk0]
  refine ⟨⟨?_, ?_, ?_, ?_⟩, ?_⟩
  · rw [linked_iff]
    intro k p hk
    by_cases hklt : k < ps.length
    · rw [List.getElem?_append_left hklt] at hk
      rcases hl.node hk with ⟨nd, hm, hn, hp⟩
      refine ⟨_, hold k p hk nd hm, ?_, ?_⟩
      · by_cases hk0 : k + 1 = ps.length
        · rw [if_pos hk0, List.getElem?_append_right (by omega)]
          simp [hk0]
        · rw [if_neg hk0, List.getElem?_append_left (by omega)]
          exact hn
      · have e : before (ps ++ [l.mem.length]) k = before ps k := by
          unfold before
          by_cases hk0 : k = 0
          · simp [hk0]
          · rw [if_neg hk0, if_neg hk0, List.getElem?_append_left (by omega)]
        rw [e]
        by_cases hk0 : k + 1 = ps.length <;> simp [hk0, hp]
    · have hkge : ps.length ≤ k := by omega
      rw [List.getElem?_append_right hkge] at hk
      have hk' : k = ps.length := by
        by_contra hne
        have : k - ps.length ≠ 0 := by omega
        obtain ⟨m, hm⟩ := Nat.exists_eq_succ_of_ne_zero this
        rw [hm] at hk
        simp at hk
      subst hk'
      simp only [Nat.sub_self, List.getElem?_cons_zero, Option.some.injEq] at hk
      subst hk
      refine ⟨_, hnew, ?_, ?_⟩
      · rw [List.getElem?_eq_none (by simp)]
      · unfold before
        by_cases h0 : ps.length = 0
        · rw [if_pos h0, h.tail_eq, List.getElem?_eq_none (by omega)]
        · rw [if_neg h0, h.tail_eq, List.getElem?_append_left (by omega)]
  · have e : (AddLast l data).head =
        match l.head with
        | none => some l.mem.length
        | some t => some t := rfl
    rw [e, h.2.1]
    cases ps <;> rfl
  · have e : (AddLast l data).tail = some l.mem.length := rfl
    rw [e, List.getLast?_concat]
  · have e : (AddLast l data).size = l.size + 1 := rfl
    rw [e, h.2.2.2]
    simp
  · rw [contents_append]
    congr 1
    · apply contents_congr
      intro p hp
      rcases List.getElem?_of_mem hp with ⟨k, hk⟩
      rcases hl.node hk with ⟨nd, hm, _, _⟩
      rw [hold k p hk nd hm, hm]
      by_cases hk0 : k + 1 = ps.length <;> simp [hk0]
    · rw [contents_cons hnew]
      rfl

end AddLemmas

section RemoveLemmas

variable {T : Type}

theorem getElem?_unlink (mem : List (Node T)) (nd : Node T) (b : Nat) :
    (unlink mem nd)[b]? =
      if nd.next = some b then
        (if nd.prev = some b then (mem[b]?).map (fun x => { x with next := nd.next })
          else mem[b]?).map (fun x => { x with prev := nd.prev })
      else if nd.prev = some b then (mem[b]?).map (fun x => { x with next := nd.next })
      else mem[b]? := by
  obtain ⟨nx, pv, d⟩ := nd
  unfold unlink
  cases pv with
  | none =>
    cases nx with
    | none => simp
    | some q =>
      simp only [getElem?_setPrev, Option.some.injEq]
      by_cases hb : b = q
      · subst hb; simp
      · have : ¬ q = b := fun e => hb e.symm
        simp [hb, this]
  | some p =>
    cases nx with
    | none =>
      simp only [getElem?_setNext, Option.some.injEq]
      by_cases hb : b = p
      · subst hb; simp
      · have : ¬ p = b := fun e => hb e.symm
        simp [hb, this]
    | some q =>
      simp only [getElem?_setPrev, getElem?_setNext, Option.some.injEq]
      by_cases hb : b = q
      · subst hb
        by_cases hb' : b = p
        · subst hb'; simp
        · have : ¬ p = b := fun e => hb' e.symm
          simp [hb', this]
      · have : ¬ q = b := fun e => hb e.symm
        by_cases hb' : b = p
        · subst hb'; simp [hb, this]
        · have : ¬ p = b := fun e => hb' e.symm
          simp [hb, hb', this, *]

theorem Remove_eq {l : LinkedList T} {index : Int} (hlt : index < l.size) {p : Nat}
    (hadv : advance l.mem index.toNat l.head = .ok (some p)) {nd : Node T}
    (hm : l.mem[p]? = some nd) (hp : nd.prev ≠ some p) (hn : nd.next ≠ some p) :
    Remove l index = .ok (some nd.Data,
      { head := if nd.prev = none then nd.next else l.head,
        tail := if nd.next = none then nd.prev else l.tail,
        size := l.size - 1,
        mem := unlink l.mem nd }) := by
  unfold Remove
  rw [if_neg (by omega), hadv]
  simp only [load, hm]
  cases hpv : nd.prev with
  | none =>
    simp only [hm]
    cases hnx : nd.next with
    | none => simp [hm, unlink, hpv, hnx]
    | some q =>
      have hq : p ≠ q := fun e => hn (by rw [hnx, e])
      simp [getElem?_setPrev, hq, hm, unlink, hpv, hnx]
  | some p' =>
    have hp' : p ≠ p' := fun e => hp (by rw [hpv, e])
    simp only [getElem?_setNext, if_neg hp', hm]
    cases hnx : nd.next with
    | none => simp [getElem?_setNext, hp', hm, unlink, hpv, hnx]
    | some q =>
      have hq : p ≠ q := fun e => hn (by rw [hnx, e])
      simp [getElem?_setPrev, getElem?_setNext, hq, hp', hm, unlink, hpv, hnx]

end RemoveLemmas

section RemoveLemmas2

variable {T : Type}

theorem before_succ (ps : List Nat) (k : Nat) : before ps (k + 1) = ps[k]? := by
  simp [before]

theorem before_zero (ps : List Nat) : before ps 0 = none := rfl

theorem before_eraseIdx (ps : List Nat) (i k : Nat) :
    before (ps.eraseIdx i) k = if k ≤ i then before ps k else before ps (k + 1) := by
  cases k with
  | zero => simp [before]
  | succ k =>
    rw [before_succ, before_succ, before_succ, List.getElem?_eraseIdx]
    by_cases h : k < i
    · rw [if_pos h, if_pos (by omega)]
    · rw [if_neg h, if_neg (by omega)]

/-- What `unlink` leaves at the address at position `m` of the chain, when the
node unlinked is the one at position `i`. -/
theorem Linked.unlink_at {mem : List (Node T)} {ps : List Nat} (h : Linked mem ps)
    {i p : Nat} (hi : ps[i]? = some p) {nd : Node T} (hm : mem[p]? = some nd)
    {m q : Nat} (hq : ps[m]? = some q) {ndq : Node T} (hmq : mem[q]? = some ndq) :
    (unlink mem nd)[q]? =
      some (if m = i + 1 then { ndq with prev := before ps i }
        else if m + 1 = i then { ndq with next := ps[i + 1]? }
        else ndq) := by
  rcases h.node hi with ⟨nd', hm', hn, hp⟩
  rw [hm] at hm'
  cases hm'
  have hilt : i < ps.length := (List.getElem?_eq_some_iff.mp hi).1
  have hmlt : m < ps.length := (List.getElem?_eq_some_iff.mp hq).1
  have hnx : nd.next = some q ↔ m = i + 1 := by
    rw [hn]
    constructor
    · intro e; exact h.index_eq hq e
    · intro e; subst e; exact hq
  have hpv : nd.prev = some q ↔ m + 1 = i := by
    rw [hp]
    constructor
    · intro e
      cases i with
      | zero => simp [before] at e
      | succ j =>
        rw [before_succ] at e
        have := h.index_eq hq e
        omega
    · intro e; subst e; rw [before_succ]; exact hq
  rw [Collections.getElem?_unlink, hmq]
  by_cases h1 : m = i + 1
  · have h2 : ¬ m + 1 = i := by omega
    rw [if_pos (hnx.mpr h1), if_neg (fun e => h2 (hpv.mp e)), if_pos h1, hp]
    rfl
  · rw [if_neg (fun e => h1 (hnx.mp e)), if_neg h1]
    by_cases h2 : m + 1 = i
    · rw [if_pos (hpv.mpr h2), if_pos h2, hn]
      rfl
    · rw [if_neg (fun e => h2 (hpv.mp e)), if_neg h2]

theorem Linked.of_unlink {mem : List (Node T)} {ps : List Nat} (h : Linked mem ps)
    {i p : Nat} (hi : ps[i]? = some p) {nd : Node T} (hm : mem[p]? = some nd) :
    Linked (unlink mem nd) (ps.eraseIdx i) := by
  rw [linked_iff]
  intro k q hk
  rw [List.getElem?_eraseIdx] at hk
  have hilt : i < ps.length := (List.getElem?_eq_some_iff.mp hi).1
  by_cases hki : k < i
  · rw [if_pos hki] at hk
    rcases h.node hk with ⟨ndq, hmq, hnq, hpq⟩
    have hA1 : ¬ k = i + 1 := by omega
    refine ⟨_, h.unlink_at hi hm hk hmq, ?_, ?_⟩
    · rw [List.getElem?_eraseIdx]
      by_cases h2 : k + 1 = i
      · simp only [if_neg hA1, if_pos h2, if_neg (show ¬ k + 1 < i by omega)]
        rw [h2]
      · simp only [if_neg hA1, if_neg h2, if_pos (show k + 1 < i by omega)]
        exact hnq
    · rw [before_eraseIdx]
      by_cases h2 : k + 1 = i
      · simp only [if_neg hA1, if_pos h2, if_pos (show k ≤ i by omega)]
        exact hpq
      · simp only [if_neg hA1, if_neg h2, if_pos (show k ≤ i by omega)]
        exact hpq
  · rw [if_neg hki] at hk
    rcases h.node hk with ⟨ndq, hmq, hnq, hpq⟩
    have hA2 : ¬ k + 1 + 1 = i := by omega
    refine ⟨_, h.unlink_at hi hm hk hmq, ?_, ?_⟩
    · rw [List.getElem?_eraseIdx]
      by_cases h1 : k + 1 = i + 1
      · simp only [if_pos h1, if_neg (show ¬ k + 1 < i by omega)]
        exact hnq
      · simp only [if_neg h1, if_neg hA2, if_neg (show ¬ k + 1 < i by omega)]
        exact hnq
    · rw [before_eraseIdx]
      by_cases h1 : k + 1 = i + 1
      · simp only [if_pos h1, if_pos (show k ≤ i by omega)]
        have : k = i := by omega
        rw [this]
      · simp only [if_neg h1, if_neg hA2, if_neg (show ¬ k ≤ i by omega)]
        exact hpq

theorem Linked.contents_unlink {mem : List (Node T)} {ps : List Nat} (h : Linked mem ps)
    {i p : Nat} (hi : ps[i]? = some p) {nd : Node T} (hm : mem[p]? = some nd) :
    contents (Collections.unlink mem nd) (ps.eraseIdx i) = (contents mem ps).eraseIdx i := by
  have h' := h.of_unlink hi hm
  apply List.ext_getElem?
  intro n
  rw [h'.getElem?_contents, List.getElem?_eraseIdx, List.getElem?_eraseIdx,
    h.getElem?_contents, h.getElem?_contents]
  have key : ∀ m : Nat, (ps[m]?).bind (fun (p : Nat) => ((Collections.unlink mem nd)[p]?).map Node.Data) =
      (ps[m]?).bind (fun (p : Nat) => (mem[p]?).map Node.Data) := by
    intro m
    cases hq : ps[m]? with
    | none => rfl
    | some q =>
      rcases h.node hq with ⟨ndq, hmq, _, _⟩
      simp only [Option.some_bind]
      rw [h.unlink_at hi hm hq hmq, hmq]
      by_cases h1 : m = i + 1
      · simp only [if_pos h1, Option.map_some']
      · by_cases h2 : m + 1 = i
        · simp only [if_neg h1, if_pos h2, Option.map_some']
        · simp only [if_neg h1, if_neg h2]
  by_cases hn : n < i
  · rw [if_pos hn, if_pos hn]; exact key n
  · rw [if_neg hn, if_neg hn]; exact key (n + 1)

theorem Represents_Remove {l : LinkedList T} {ps : List Nat} (h : Represents l ps)
    {i : Nat} (hi : i < ps.length) :
    ∃ l', Remove l (i : Int) = .ok ((contents l.mem ps)[i]?, l') ∧
      Represents l' (ps.eraseIdx i) ∧
      contents l'.mem (ps.eraseIdx i) = (contents l.mem ps).eraseIdx i := by
  have hl := h.1
  have hpi := List.getElem?_eq_getElem hi
  rcases hl.node hpi with ⟨nd, hm, hn, hp⟩
  have hadv : advance l.mem (i : Int).toNat l.head = .ok (some ps[i]) := by
    rw [Int.toNat_ofNat, advance_represents h (by omega), hpi]
  have hpne : nd.prev ≠ some ps[i] := by
    rw [hp]
    intro e
    cases i with
    | zero => simp [before] at e
    | succ j =>
      rw [before_succ] at e
      have := hl.index_eq hpi e
      omega
  have hnne : nd.next ≠ some ps[i] := by
    rw [hn]
    intro e
    have := hl.index_eq hpi e
    omega
  have hdata : (contents l.mem ps)[i]? = some nd.Data := by
    rw [hl.getElem?_contents, hpi]
    simp [hm]
  refine ⟨{ head := if nd.prev = none then nd.next else l.head,
            tail := if nd.next = none then nd.prev else l.tail,
            size := l.size - 1,
            mem := unlink l.mem nd }, ?_, ⟨hl.of_unlink hpi hm, ?_, ?_, ?_⟩,
    hl.contents_unlink hpi hm⟩
  · rw [hdata]
    exact Remove_eq (by rw [h.2.2.2]; exact_mod_cast hi) hadv hm hpne hnne
  · show (if nd.prev = none then nd.next else l.head) = (ps.eraseIdx i).head?
    rw [List.head?_eq_getElem?, List.getElem?_eraseIdx, hp, hn, h.head_eq]
    cases i with
    | zero => simp [before]
    | succ j =>
      rw [before_succ, List.getElem?_eq_getElem (by omega : j < ps.length)]
      simp
  · show (if nd.next = none then nd.prev else l.tail) = (ps.eraseIdx i).getLast?
    rw [List.getLast?_eq_getElem?, List.getElem?_eraseIdx, List.length_eraseIdx, if_pos hi,
      hp, hn, h.tail_eq]
    by_cases hlast : i + 1 = ps.length
    · rw [List.getElem?_eq_none (by omega), if_pos rfl]
      cases i with
      | zero =>
        have : ps.length - 1 - 1 + 1 = 1 := by omega
        rw [before_zero, if_neg (by omega), this, List.getElem?_eq_none (by omega)]
      | succ j =>
        have : ps.length - 1 - 1 = j := by omega
        rw [before_succ, this, if_pos (by omega)]
    · have hlt : i + 1 < ps.length := by omega
      rw [List.getElem?_eq_getElem hlt, if_neg (by simp), if_neg (by omega)]
      congr 1
      omega
  · show l.size - 1 = ((ps.eraseIdx i).length : Int)
    rw [List.length_eraseIdx, if_pos hi, h.2.2.2]
    omega

end RemoveLemmas2

section EndRemoveLemmas

variable {T : Type}

theorem RemoveFirst_nil {l : LinkedList T} (h : Represents l []) :
    RemoveFirst l = .ok (none, l) := by
  have hh : l.head = none := h.2.1
  simp [RemoveFirst, hh]

theorem RemoveLast_nil {l : LinkedList T} (h : Represents l []) :
    RemoveLast l = .ok (none, l) := by
  have ht : l.tail = none := h.2.2.1
  simp [RemoveLast, ht]

theorem RemoveFirst_eq_Remove {l : LinkedList T} {ps : List Nat} (h : Represents l ps)
    (hne : 0 < ps.length) : RemoveFirst l = Remove l 0 := by
  have hl := h.1
  have hp0 := List.getElem?_eq_getElem hne
  rcases hl.node hp0 with ⟨nd, hm, hn, hp⟩
  have hadv : advance l.mem (0 : Int).toNat l.head = .ok (some ps[0]) := by
    have := advance_represents h (Nat.zero_le ps.length)
    rw [hp0] at this
    exact this
  have hpv : nd.prev = none := hp
  have hnne : nd.next ≠ some ps[0] := by
    rw [hn]
    intro e
    have := hl.index_eq hp0 e
    omega
  rw [Remove_eq (by rw [h.2.2.2]; exact_mod_cast hne) hadv hm (by rw [hpv]; simp) hnne]
  have hh : l.head = some ps[0] := by rw [h.head_eq, hp0]
  obtain ⟨nx, pv, d⟩ := nd
  simp only at hpv
  subst hpv
  cases nx with
  | none => simp [RemoveFirst, hh, hm, unlink]
  | some q => simp [RemoveFirst, hh, hm, unlink]

theorem RemoveLast_eq_Remove {l : LinkedList T} {ps : List Nat} (h : Represents l ps)
    (hne : 0 < ps.length) : RemoveLast l = Remove l ((ps.length - 1 : Nat) : Int) := by
  have hl := h.1
  have hlt : ps.length - 1 < ps.length := by omega
  have hp0 := List.getElem?_eq_getElem hlt
  rcases hl.node hp0 with ⟨nd, hm, hn, hp⟩
  have hadv : advance l.mem ((ps.length - 1 : Nat) : Int).toNat l.head =
      .ok (some ps[ps.length - 1]) := by
    rw [Int.toNat_ofNat, advance_represents h (by omega), hp0]
  have hnx : nd.next = none := by
    rw [hn, List.getElem?_eq_none (by omega)]
  have hpne : nd.prev ≠ some ps[ps.length - 1] := by
    rw [hp]
    intro e
    unfold before at e
    by_cases h0 : ps.length - 1 = 0
    · rw [if_pos h0] at e; simp at e
    · rw [if_neg h0] at e
      have := hl.index_eq hp0 e
      omega
  rw [Remove_eq (by rw [h.2.2.2]; exact_mod_cast hlt) hadv hm hpne (by rw [hnx]; simp)]
  have ht : l.tail = some ps[ps.length - 1] := by rw [h.tail_eq, hp0]
  obtain ⟨nx, pv, d⟩ := nd
  simp only at hnx
  subst hnx
  cases pv with
  | none => simp [RemoveLast, ht, hm, unlink]
  | some q => simp [RemoveLast, ht, hm, unlink]

theorem Represents_RemoveFirst {l : LinkedList T} {ps : List Nat} (h : Represents l ps)
    (hne : 0 < ps.length) :
    ∃ l', RemoveFirst l = .ok ((contents l.mem ps).head?, l') ∧
      Represents l' ps.tail ∧ contents l'.mem ps.tail = (contents l.mem ps).tail := by
  rcases Represents_Remove h hne with ⟨l', h1, h2, h3⟩
  refine ⟨l', ?_, ?_, ?_⟩
  · rw [RemoveFirst_eq_Remove h hne, List.head?_eq_getElem?]
    exact h1
  · simpa using h2
  · simpa using h3

theorem Represents_RemoveLast {l : LinkedList T} {ps : List Nat} (h : Represents l ps)
    (hne : 0 < ps.length) :
    ∃ l', RemoveLast l = .ok ((contents l.mem ps).getLast?, l') ∧
      Represents l' ps.dropLast ∧ contents l'.mem ps.dropLast = (contents l.mem ps).dropLast := by
  have hlt : ps.length - 1 < ps.length := by omega
  rcases Represents_Remove h hlt with ⟨l', h1, h2, h3⟩
  have e1 : ps.eraseIdx (ps.length - 1) = ps.dropLast := by
    rw [List.dropLast_eq_eraseIdx (show ps.length - 1 + 1 = ps.length by omega)]
  have e2 : (contents l.mem ps).eraseIdx (ps.length - 1) = (contents l.mem ps).dropLast := by
    rw [List.dropLast_eq_eraseIdx
      (show ps.length - 1 + 1 = (contents l.mem ps).length by rw [h.1.length_contents]; omega)]
  rw [e1] at h2 h3
  rw [e2] at h3
  refine ⟨l', ?_, h2, h3⟩
  rw [RemoveLast_eq_Remove h hne, List.getLast?_eq_getElem?, h.1.length_contents]
  exact h1

end EndRemoveLemmas

section ReverseLemmas

variable {T : Type}

theorem NextPath_congr {mem mem' : List (Node T)} :
    ∀ (qs : List Nat) (cur : Option Nat), (∀ p ∈ qs, mem'[p]? = mem[p]?) →
      NextPath mem cur qs → NextPath mem' cur qs := by
  intro qs
  induction qs with
  | nil => intro cur _ h; exact h
  | cons q qs ih =>
    intro cur hagree h
    rcases h with ⟨rfl, nd, hm, hp⟩
    refine ⟨rfl, nd, ?_, ih nd.next (fun p hp => hagree p (List.mem_cons_of_mem _ hp)) hp⟩
    rw [hagree q (List.mem_cons_self _ _)]
    exact hm

theorem getElem?_set_swap {mem : List (Node T)} {q : Nat} {nd : Node T}
    (hm : mem[q]? = some nd) (b : Nat) :
    (mem.set q { nd with next := nd.prev, prev := nd.next })[b]? =
      if b = q then some { nd with next := nd.prev, prev := nd.next } else mem[b]? := by
  have hlt : q < mem.length := (List.getElem?_eq_some_iff.mp hm).1
  by_cases hb : b = q
  · subst hb; simp [List.getElem?_set, hlt]
  · have : q ≠ b := fun e => hb e.symm
    rw [List.getElem?_set_ne this, if_neg hb]

theorem reverseLoop_path :
    ∀ (qs : List Nat) (mem : List (Node T)) (cur : Option Nat) (fuel : Nat),
      NextPath mem cur qs → qs.Nodup → qs.length ≤ fuel →
      reverseLoop fuel mem cur = .ok (swapAll mem qs) := by
  intro qs
  induction qs with
  | nil =>
    intro mem cur fuel hp _ _
    have : cur = none := hp
    subst this
    cases fuel <;> rfl
  | cons q qs ih =>
    intro mem cur fuel hp hnd hf
    rcases hp with ⟨rfl, nd, hm, hp'⟩
    cases fuel with
    | zero => simp at hf
    | succ fuel =>
      have hq : q ∉ qs := (List.nodup_cons.mp hnd).1
      have hnd' : qs.Nodup := (List.nodup_cons.mp hnd).2
      have hset := getElem?_set_swap hm
      simp only [reverseLoop, hm, hset, if_true, swapAll]
      apply ih _ _ _ _ hnd' (by simpa using hf)
      apply NextPath_congr qs nd.next _ hp'
      intro p hp
      have hpq : p ≠ q := fun e => hq (by rw [← e]; exact hp)
      rw [hset, if_neg hpq]

theorem getElem?_swapAll :
    ∀ (qs : List Nat) (mem : List (Node T)) (b : Nat), qs.Nodup →
      (swapAll mem qs)[b]? =
        if b ∈ qs then (mem[b]?).map (fun nd => { nd with next := nd.prev, prev := nd.next })
        else mem[b]? := by
  intro qs
  induction qs with
  | nil => intro mem b _; simp [swapAll]
  | cons q qs ih =>
    intro mem b hnd
    have hq : q ∉ qs := (List.nodup_cons.mp hnd).1
    have hnd' : qs.Nodup := (List.nodup_cons.mp hnd).2
    cases hm : mem[q]? with
    | none =>
      simp only [swapAll, hm]
      rw [ih mem b hnd']
      by_cases hb : b = q
      · subst hb
        simp [hq, hm]
      · simp [hb]
    | some nd =>
      simp only [swapAll, hm]
      rw [ih _ b hnd', getElem?_set_swap hm]
      by_cases hb : b = q
      · subst hb
        simp [hq, hm]
      · simp [hb]

theorem Linked.of_swapAll {mem : List (Node T)} {ps : List Nat} (h : Linked mem ps) :
    Linked (swapAll mem ps) ps.reverse := by
  rw [linked_iff]
  intro k p hk
  have hklt : k < ps.length := by
    have := (List.getElem?_eq_some_iff.mp hk).1
    simpa using this
  rw [List.getElem?_reverse hklt] at hk
  rcases h.node hk with ⟨nd, hm, hn, hp⟩
  refine ⟨{ nd with next := nd.prev, prev := nd.next }, ?_, ?_, ?_⟩
  · rw [getElem?_swapAll ps mem p h.nodup, if_pos (List.getElem?_mem hk), hm]
    rfl
  · show nd.prev = ps.reverse[k + 1]?
    rw [hp]
    unfold before
    by_cases hlast : k + 1 = ps.length
    · rw [if_pos (by omega), List.getElem?_eq_none (by simp; omega)]
    · rw [if_neg (by omega), List.getElem?_reverse (by omega)]
      congr 1
  · show nd.next = before ps.reverse k
    rw [hn]
    cases k with
    | zero =>
      rw [before_zero, List.getElem?_eq_none (by omega)]
    | succ j =>
      rw [before_succ, List.getElem?_reverse (by omega)]
      congr 1
      omega

theorem Linked.contents_swapAll {mem : List (Node T)} {ps : List Nat} (h : Linked mem ps) :
    contents (Collections.swapAll mem ps) ps.reverse = (contents mem ps).reverse := by
  rw [← contents_reverse]
  apply contents_congr
  intro p hp
  rw [getElem?_swapAll ps mem p h.nodup, if_pos (by simpa using hp)]
  cases mem[p]? <;> rfl

theorem Linked.swapAll_swapAll {mem : List (Node T)} {ps : List Nat} (h : Linked mem ps) :
    Collections.swapAll (Collections.swapAll mem ps) ps.reverse = mem := by
  apply List.ext_getElem?
  intro b
  rw [getElem?_swapAll ps.reverse _ b (List.nodup_reverse.mpr h.nodup),
    getElem?_swapAll ps mem b h.nodup]
  by_cases hb : b ∈ ps
  · rw [if_pos (by simpa using hb), if_pos hb]
    cases mem[b]? <;> rfl
  · rw [if_neg (by simpa using hb), if_neg hb]

theorem Represents_Reverse {l : LinkedList T} {ps : List Nat} (h : Represents l ps)
    {fuel : Nat} (hf : ps.length ≤ fuel) :
    Reverse fuel l =
        .ok { l with mem := swapAll l.mem ps, head := l.tail, tail := l.head } ∧
      Represents { l with mem := swapAll l.mem ps, head := l.tail, tail := l.head }
        ps.reverse := by
  constructor
  · unfold Reverse
    rw [h.2.1, reverseLoop_path ps l.mem _ fuel h.1.nextPath h.1.nodup hf]
  · refine ⟨h.1.of_swapAll, ?_, ?_, ?_⟩
    · show l.tail = ps.reverse.head?
      rw [List.head?_reverse, h.2.2.1]
    · show l.head = ps.reverse.getLast?
      rw [List.getLast?_reverse, h.2.1]
    · show l.size = (ps.reverse.length : Int)
      rw [List.length_reverse, h.2.2.2]

end ReverseLemmas

section WellFormedLemmas

variable {T : Type}

theorem foldl_collect (xs acc : List T) :
    xs.foldl (fun seen v => collect v seen) acc = acc ++ xs := by
  induction xs generalizing acc with
  | nil => simp
  | cons x xs ih =>
    rw [List.foldl_cons, ih]
    simp [collect]

theorem Represents.le_fuel {l : LinkedList T} {ps : List Nat} (h : Represents l ps)
    {fuel : Nat} (hf : Size l ≤ (fuel : Int)) : ps.length ≤ fuel := by
  have := h.2.2.2
  unfold Size at hf
  omega

theorem reverseLoop_mono :
    ∀ (fuel : Nat) (mem : List (Node T)) (cur : Option Nat) (mem' : List (Node T)),
      reverseLoop fuel mem cur = .ok mem' →
      ∀ fuel', fuel ≤ fuel' → reverseLoop fuel' mem cur = .ok mem' := by
  intro fuel
  induction fuel with
  | zero =>
    intro mem cur mem' h fuel' _
    cases cur with
    | none =>
      cases fuel' <;> exact h
    | some a => simp [reverseLoop] at h
  | succ fuel ih =>
    intro mem cur mem' h fuel' hle
    cases cur with
    | none => cases fuel' <;> exact h
    | some a =>
      cases fuel' with
      | zero => omega
      | succ fuel' =>
        simp only [reverseLoop] at h ⊢
        cases hm : mem[a]? with
        | none => simp [hm] at h
        | some nd =>
          simp only [hm] at h ⊢
          cases hm1 : (mem.set a { nd with next := nd.prev, prev := nd.next })[a]? with
          | none => simp [hm1] at h
          | some nd1 =>
            simp only [hm1] at h ⊢
            exact ih _ _ _ h fuel' (by omega)

theorem WellFormed_Reverse {l l' : LinkedList T} (h : WellFormed l) {fuel : Nat}
    (hr : Reverse fuel l = .ok l') : WellFormed l' := by
  rcases h with ⟨ps, hps⟩
  have hmono : Reverse (max fuel ps.length) l = .ok l' := by
    unfold Reverse at hr ⊢
    cases hl : reverseLoop fuel l.mem l.head with
    | error e => simp [hl] at hr
    | ok m =>
      rw [reverseLoop_mono fuel _ _ m hl _ (le_max_left _ _)]
      simpa [hl] using hr
  rcases Represents_Reverse hps (le_max_right fuel ps.length) with ⟨h1, h2⟩
  rw [h1] at hmono
  cases hmono
  exact ⟨_, h2⟩

theorem WellFormed_Remove {l l' : LinkedList T} {r : Option T} (h : WellFormed l)
    {index : Int} (h0 : 0 ≤ index) (hr : Remove l index = .ok (r, l')) : WellFormed l' := by
  rcases h with ⟨ps, hps⟩
  by_cases hge : index ≥ l.size
  · simp only [Remove, if_pos hge] at hr
    cases hr
    exact ⟨ps, hps⟩
  · obtain ⟨i, rfl⟩ := Int.eq_ofNat_of_zero_le h0
    have hi : i < ps.length := by
      have := hps.2.2.2
      omega
    rcases Represents_Remove hps hi with ⟨l'', h1, h2, _⟩
    rw [h1] at hr
    cases hr
    exact ⟨_, h2⟩

theorem WellFormed_RemoveFirst {l l' : LinkedList T} {r : Option T} (h : WellFormed l)
    (hr : RemoveFirst l = .ok (r, l')) : WellFormed l' := by
  rcases h with ⟨ps, hps⟩
  cases ps with
  | nil =>
    rw [RemoveFirst_nil hps] at hr
    cases hr
    exact ⟨_, hps⟩
  | cons p ps =>
    rcases Represents_RemoveFirst hps (by simp) with ⟨l'', h1, h2, _⟩
    rw [h1] at hr
    cases hr
    exact ⟨_, h2⟩

theorem WellFormed_RemoveLast {l l' : LinkedList T} {r : Option T} (h : WellFormed l)
    (hr : RemoveLast l = .ok (r, l')) : WellFormed l' := by
  rcases h with ⟨ps, hps⟩
  cases ps with
  | nil =>
    rw [RemoveLast_nil hps] at hr
    cases hr
    exact ⟨_, hps⟩
  | cons p ps =>
    rcases Represents_RemoveLast hps (by simp) with ⟨l'', h1, h2, _⟩
    rw [h1] at hr
    cases hr
    exact ⟨_, h2⟩

theorem Reachable.wellFormed {l : LinkedList T} (h : Reachable l) : WellFormed l := by
  induction h with
  | new => exact ⟨[], Represents_new⟩
  | addFirst data _ ih =>
    rcases ih with ⟨ps, hps⟩
    exact ⟨_, (Represents_AddFirst hps data).1⟩
  | addLast data _ ih =>
    rcases ih with ⟨ps, hps⟩
    exact ⟨_, (Represents_AddLast hps data).1⟩
  | removeFirst _ hr ih => exact WellFormed_RemoveFirst ih hr
  | removeLast _ hr ih => exact WellFormed_RemoveLast ih hr
  | remove index _ h0 hr ih => exact WellFormed_Remove ih h0 hr
  | clear _ _ => exact ⟨[], Represents_Clear _⟩
  | reverse fuel _ hr ih => exact WellFormed_Reverse ih hr

theorem runCalls_represents :
    ∀ (calls : List (EndCall T)) (l : LinkedList T) (ps : List Nat), Represents l ps →
      ∃ l' rets ps', runCalls l calls = .ok (l', rets) ∧ Represents l' ps' ∧
        Size l' = Size l + (countAdds calls : Int) - (countPresent rets : Int) := by
  intro calls
  induction calls with
  | nil =>
    intro l ps h
    exact ⟨l, [], ps, rfl, h, by simp [countAdds, countPresent]⟩
  | cons c cs ih =>
    intro l ps h
    cases c with
    | addFirst data =>
      rcases ih _ _ (Represents_AddFirst h data).1 with ⟨l', rets, ps', h1, h2, h3⟩
      refine ⟨l', rets, ps', h1, h2, ?_⟩
      rw [h3]
      simp only [Size, AddFirst, countAdds]
      push_cast
      omega
    | addLast data =>
      rcases ih _ _ (Represents_AddLast h data).1 with ⟨l', rets, ps', h1, h2, h3⟩
      refine ⟨l', rets, ps', h1, h2, ?_⟩
      rw [h3]
      simp only [Size, AddLast, countAdds]
      push_cast
      omega
    | removeFirst =>
      cases ps with
      | nil =>
        rcases ih _ _ h with ⟨l', rets, ps', h1, h2, h3⟩
        refine ⟨l', none :: rets, ps', ?_, h2, ?_⟩
        · simp only [runCalls, RemoveFirst_nil h, h1]
        · rw [h3]; simp [countAdds, countPresent]
      | cons p ps =>
        rcases Represents_RemoveFirst h (by simp) with ⟨l1, e1, r1, c1⟩
        rcases ih _ _ r1 with ⟨l', rets, ps', h1, h2, h3⟩
        have hc : ∃ v, (contents l.mem (p :: ps)).head? = some v := by
          have := h.1.length_contents
          cases hcs : contents l.mem (p :: ps) with
          | nil => rw [hcs] at this; simp at this
          | cons v vs => exact ⟨v, rfl⟩
        rcases hc with ⟨v, hv⟩
        rw [hv] at e1
        refine ⟨l', some v :: rets, ps', ?_, h2, ?_⟩
        · simp only [runCalls, e1, h1]
        · rw [h3]
          have s1 : Size l1 = Size l - 1 := by
            have a := r1.2.2.2
            have b := h.2.2.2
            simp only [Size]
            rw [a, b]
            simp
          rw [s1]
          simp only [countAdds, countPresent]
          push_cast
          omega
    | removeLast =>
      cases ps with
      | nil =>
        rcases ih _ _ h with ⟨l', rets, ps', h1, h2, h3⟩
        refine ⟨l', none :: rets, ps', ?_, h2, ?_⟩
        · simp only [runCalls, RemoveLast_nil h, h1]
        · rw [h3]; simp [countAdds, countPresent]
      | cons p ps =>
        rcases Represents_RemoveLast h (by simp) with ⟨l1, e1, r1, c1⟩
        rcases ih _ _ r1 with ⟨l', rets, ps', h1, h2, h3⟩
        have hc : ∃ v, (contents l.mem (p :: ps)).getLast? = some v := by
          have := h.1.length_contents
          have hne : contents l.mem (p :: ps) ≠ [] := by
            intro e; rw [e] at this; simp at this
          exact ⟨_, List.getLast?_eq_getLast _ hne⟩
        rcases hc with ⟨v, hv⟩
        rw [hv] at e1
        refine ⟨l', some v :: rets, ps', ?_, h2, ?_⟩
        · simp only [runCalls, e1, h1]
        · rw [h3]
          have s1 : Size l1 = Size l - 1 := by
            have a := r1.2.2.2
            have b := h.2.2.2
            simp only [Size]
            rw [a, b]
            simp
          rw [s1]
          simp only [countAdds, countPresent]
          push_cast
          omega

end WellFormedLemmas

section MoreLemmas

variable {T : Type}

theorem PeekFirst_represents {l : LinkedList T} {ps : List Nat} (h : Represents l ps) :
    PeekFirst l = .ok (contents l.mem ps).head? := by
  unfold PeekFirst
  cases ps with
  | nil =>
    have hh : l.head = none := h.2.1
    simp [hh, contents]
  | cons p ps =>
    have hh : l.head = some p := h.2.1
    rcases h.1.node (show (p :: ps)[0]? = some p by simp) with ⟨nd, hm, _, _⟩
    simp only [hh, hm, contents_cons hm, List.head?_cons]

theorem PeekLast_represents {l : LinkedList T} {ps : List Nat} (h : Represents l ps) :
    PeekLast l = .ok (contents l.mem ps).getLast? := by
  unfold PeekLast
  rw [List.getLast?_eq_getElem?, h.1.getElem?_contents, h.1.length_contents, h.tail_eq]
  cases hp : ps[ps.length - 1]? with
  | none => rfl
  | some t =>
    rcases h.1.node hp with ⟨nd, hm, _, _⟩
    simp [hm]

theorem stringLoop_none (mem : List (Node T)) (render : T → String) (fuel : Nat)
    (buffer : String) : stringLoop mem render fuel none buffer = .ok buffer := by
  cases fuel <;> rfl

theorem stringLoop_path {mem : List (Node T)} (render : T → String) :
    ∀ (qs : List Nat) (q : Nat) (fuel : Nat) (buffer : String) (nd : Node T),
      NextPath mem (some q) (q :: qs) → mem[q]? = some nd → qs.length < fuel →
      stringLoop mem render fuel (some q) buffer =
        .ok (String.intercalate.go (buffer ++ render nd.Data) " -> "
          ((contents mem qs).map render)) := by
  intro qs
  induction qs with
  | nil =>
    intro q fuel buffer nd hp hm hf
    rcases hp with ⟨_, nd', hm', hp'⟩
    rw [hm] at hm'
    cases hm'
    have hn : nd.next = none := hp'
    cases fuel with
    | zero => simp at hf
    | succ fuel =>
      simp only [stringLoop, hm, hn, stringLoop_none, contents_nil, List.map_nil,
        String.intercalate.go]
  | cons q' qs ih =>
    intro q fuel buffer nd hp hm hf
    rcases hp with ⟨_, nd', hm', hp'⟩
    rw [hm] at hm'
    cases hm'
    have hn : nd.next = some q' := hp'.1
    rcases hp'.2 with ⟨nd2, hm2, _⟩
    cases fuel with
    | zero => simp at hf
    | succ fuel =>
      have hp2 : NextPath mem (some q') (q' :: qs) := by rw [← hn]; exact hp'
      simp only [stringLoop, hm, hn]
      rw [ih q' fuel _ nd2 hp2 hm2 (by simpa using hf), contents_cons hm2]
      simp only [List.map_cons, String.intercalate.go]

theorem String_represents {l : LinkedList T} {ps : List Nat} (h : Represents l ps)
    {fuel : Nat} (hf : ps.length ≤ fuel) (render : T → String) :
    LinkedList.String fuel render l =
      .ok (String.intercalate " -> " ((contents l.mem ps).map render)) := by
  unfold LinkedList.String
  cases ps with
  | nil =>
    have hh : l.head = none := h.2.1
    rw [hh, stringLoop_none]
    rfl
  | cons p ps =>
    have hh : l.head = some p := h.2.1
    rcases h.1.node (show (p :: ps)[0]? = some p by simp) with ⟨nd, hm, _, _⟩
    have hp : NextPath l.mem (some p) (p :: ps) := by
      have := h.1.nextPath
      simpa using this
    rcases hp with ⟨_, nd', hm', hp'⟩
    have e : nd' = nd := by rw [hm] at hm'; exact (Option.some.inj hm').symm
    subst e
    have hc : contents l.mem (p :: ps) = nd'.Data :: contents l.mem ps := contents_cons hm _
    rw [hh, stringLoop_path render ps p fuel "" nd' ⟨rfl, nd', hm, hp'⟩ hm
      (by simpa using hf), hc]
    simp only [List.map_cons, String.intercalate, String.empty_append]

theorem join_intersperse_go (sep : String) :
    ∀ (as : List String) (acc a : String),
      List.foldl (fun r s => r ++ s) acc (List.intersperse sep (a :: as)) =
        String.intercalate.go (acc ++ a) sep as := by
  intro as
  induction as with
  | nil => intro acc a; simp [String.intercalate.go]
  | cons b bs ih =>
    intro acc a
    rw [List.intersperse_cons_cons, List.foldl_cons, List.foldl_cons, ih]
    simp only [String.intercalate.go]

theorem intercalate_eq_join (sep : String) (xs : List String) :
    String.intercalate sep xs = String.join (List.intersperse sep xs) := by
  cases xs with
  | nil => rfl
  | cons a as =>
    unfold String.join
    rw [join_intersperse_go]
    simp only [String.intercalate, String.empty_append]

theorem length_intersperse_add_one (sep : String) :
    ∀ xs : List String, xs ≠ [] → (List.intersperse sep xs).length + 1 = 2 * xs.length := by
  intro xs
  induction xs with
  | nil => intro h; exact absurd rfl h
  | cons a as ih =>
    intro _
    cases as with
    | nil => simp
    | cons b bs =>
      have := ih (by simp)
      rw [List.intersperse_cons_cons, List.length_cons, List.length_cons]
      simp only [List.length_cons] at this ⊢
      omega

/-- What `findIdx` finds when some entry passes the test: a position inside
the list, whose entry passes, and before which no entry passes. -/
theorem findIdx_first (p : T → Bool) (xs : List T) (h : xs.any p = true) :
    xs.findIdx p < xs.length ∧ (∃ e, xs[xs.findIdx p]? = some e ∧ p e = true) ∧
      ∀ j e, j < xs.findIdx p → xs[j]? = some e → p e = false := by
  have hex : ∃ x ∈ xs, p x = true := by simpa using h
  have hlt : xs.findIdx p < xs.length := List.findIdx_lt_length_of_exists hex
  refine ⟨hlt, ⟨xs[xs.findIdx p], List.getElem?_eq_getElem hlt, List.findIdx_getElem⟩, ?_⟩
  intro j e hj he
  rcases List.getElem?_eq_some_iff.mp he with ⟨hjl, rfl⟩
  have := List.not_of_lt_findIdx hj
  simpa using this

theorem any_beq_iff_mem [BEq T] [LawfulBEq T] (xs : List T) (v : T) :
    xs.any (fun e => e == v) = true ↔ v ∈ xs := by
  simp only [List.any_eq_true, beq_iff_eq]
  constructor
  · rintro ⟨e, he, rfl⟩; exact he
  · intro h; exact ⟨v, h, rfl⟩

end MoreLemmas

section Claims

variable {T : Type}

/-- C1: every sequence of AddFirst, AddLast, RemoveFirst and RemoveLast calls on
a new list runs through, `Size()` afterwards is the number of Add calls minus
the number of Remove calls that returned a value, and `Size()` is not negative
after any prefix of the sequence. -/
theorem size_is_adds_minus_removes (calls : List (EndCall T)) :
    ∃ l rets, runCalls NewLinkedList calls = .ok (l, rets) ∧
      Size l = (countAdds calls : Int) - (countPresent rets : Int) ∧
      ∀ k, ∃ lk rk, runCalls NewLinkedList (calls.take k) = .ok (lk, rk) ∧ 0 ≤ Size lk := by
  rcases runCalls_represents calls NewLinkedList [] Represents_new with ⟨l, rets, ps, h1, _, h3⟩
  refine ⟨l, rets, h1, ?_, ?_⟩
  · rw [h3]; simp [Size, NewLinkedList]
  · intro k
    rcases runCalls_represents (calls.take k) NewLinkedList [] Represents_new with
      ⟨lk, rk, pk, e1, e2, _⟩
    exact ⟨lk, rk, e1, e2.size_nonneg⟩

/-- C2: on every list built from a new list by AddFirst, AddLast, RemoveFirst,
RemoveLast, Remove at an index that is not negative, Clear and Reverse, the walk
from head along next and the walk from tail along prev both end, the values the
second one sees are those of the first in reverse order, and each sees exactly
`Size()` values. -/
theorem walks_are_reverses (l : LinkedList T) (h : Reachable l) (fuel : Nat)
    (hf : Size l ≤ (fuel : Int)) :
    ∃ vs, ForEach fuel l collect [] = .ok (true, vs) ∧
      ForEachReverse fuel l collect [] = .ok (true, vs.reverse) ∧
      (vs.length : Int) = Size l ∧ (vs.reverse.length : Int) = Size l := by
  rcases h.wellFormed with ⟨ps, hps⟩
  have hfuel := hps.le_fuel hf
  refine ⟨contents l.mem ps, ?_, ?_, ?_, ?_⟩
  · rw [ForEach_represents hps hfuel, foldl_collect]; simp
  · rw [ForEachReverse_represents hps hfuel, foldl_collect]; simp
  · rw [hps.1.length_contents]; exact hps.2.2.2.symm
  · rw [List.length_reverse, hps.1.length_contents]; exact hps.2.2.2.symm

theorem walks_are_reverses_witness :
    Reachable sampleTwo ∧ Size sampleTwo ≤ ((2 : Nat) : Int) ∧
      ∃ vs, ForEach 2 sampleTwo collect [] = .ok (true, vs) ∧
        ForEachReverse 2 sampleTwo collect [] = .ok (true, vs.reverse) ∧
        (vs.length : Int) = Size sampleTwo ∧ (vs.reverse.length : Int) = Size sampleTwo :=
  ⟨.addFirst 21 (.addFirst 20 .new), by decide,
    walks_are_reverses sampleTwo (.addFirst 21 (.addFirst 20 .new)) 2 (by decide)⟩

/-- C3: on a well-formed list `Reverse()` returns, `Values()` afterwards is
`Values()` before in reverse order, and `Size()` is the same. -/
theorem values_after_reverse [Inhabited T] (l : LinkedList T) (h : WellFormed l) (fuel : Nat)
    (hf : Size l ≤ (fuel : Int)) :
    ∃ vs l', Values fuel l = .ok vs ∧ Reverse fuel l = .ok l' ∧
      Values fuel l' = .ok vs.reverse ∧ Size l' = Size l := by
  rcases h with ⟨ps, hps⟩
  have hfuel := hps.le_fuel hf
  rcases Represents_Reverse hps hfuel with ⟨h1, h2⟩
  refine ⟨contents l.mem ps, _, Values_represents hps hfuel, h1, ?_, rfl⟩
  rw [Values_represents h2 (by simpa using hfuel)]
  exact congrArg _ hps.1.contents_swapAll

theorem values_after_reverse_witness :
    WellFormed sampleThree ∧ Values 3 sampleThree = .ok [22, 21, 20] ∧
      (∃ l', Reverse 3 sampleThree = .ok l' ∧
        ForEach 3 l' collect [] = .ok (true, [20, 21, 22])) ∧
      ∃ vs l', Values 3 sampleThree = .ok vs ∧ Reverse 3 sampleThree = .ok l' ∧
        Values 3 l' = .ok vs.reverse ∧ Size l' = Size sampleThree :=
  ⟨⟨[2, 1, 0], by decide⟩, rfl, ⟨_, rfl, rfl⟩,
    values_after_reverse sampleThree ⟨[2, 1, 0], by decide⟩ 3 (by decide)⟩

/-- C4: on a well-formed list two calls of `Reverse()` both return and leave
the list as it was: the same head, the same tail, the same size and the same
links in every node, hence the same order. -/
theorem reverse_twice (l : LinkedList T) (h : WellFormed l) (fuel : Nat)
    (hf : Size l ≤ (fuel : Int)) :
    ∃ l1, Reverse fuel l = .ok l1 ∧ Reverse fuel l1 = .ok l := by
  rcases h with ⟨ps, hps⟩
  have hfuel := hps.le_fuel hf
  rcases Represents_Reverse hps hfuel with ⟨h1, h2⟩
  rcases Represents_Reverse h2 (by simpa using hfuel) with ⟨h3, _⟩
  refine ⟨_, h1, ?_⟩
  rw [h3]
  simp only [hps.1.swapAll_swapAll]

theorem reverse_twice_witness :
    WellFormed sampleThree ∧
      ∃ l1, Reverse 3 sampleThree = .ok l1 ∧ Reverse 3 l1 = .ok sampleThree :=
  ⟨⟨[2, 1, 0], by decide⟩, reverse_twice sampleThree ⟨[2, 1, 0], by decide⟩ 3 (by decide)⟩

/-- C5: on a well-formed list and for an index from 0 to `Size()` - 1,
`Remove(index)` returns what `Get(index)` returned, `Size()` goes down by one,
`Values()` afterwards is `Values()` before without the entry at that index, and
the list is well-formed again. -/
theorem remove_in_range [Inhabited T] (l : LinkedList T) (h : WellFormed l) (index : Int)
    (h0 : 0 ≤ index) (h1 : index < Size l) (fuel : Nat) (hf : Size l ≤ (fuel : Int)) :
    ∃ v vs l', Get l index = .ok (some v) ∧ Remove l index = .ok (some v, l') ∧
      Size l' = Size l - 1 ∧ Values fuel l = .ok vs ∧
      Values fuel l' = .ok (vs.eraseIdx index.toNat) ∧ WellFormed l' := by
  rcases h with ⟨ps, hps⟩
  have hfuel := hps.le_fuel hf
  obtain ⟨i, rfl⟩ := Int.eq_ofNat_of_zero_le h0
  have hi : i < ps.length := by
    have := hps.2.2.2
    unfold Size at h1
    omega
  rcases Represents_Remove hps hi with ⟨l', e1, e2, e3⟩
  have hv : ∃ v, (contents l.mem ps)[i]? = some v :=
    ⟨_, List.getElem?_eq_getElem (by rw [hps.1.length_contents]; exact hi)⟩
  rcases hv with ⟨v, hv⟩
  refine ⟨v, contents l.mem ps, l', ?_, ?_, ?_, Values_represents hps hfuel, ?_, ⟨_, e2⟩⟩
  · rw [Get_represents hps hi, hv]
  · rw [e1, hv]
  · have a := e2.2.2.2
    have b := hps.2.2.2
    simp only [Size]
    rw [a, b, List.length_eraseIdx, if_pos hi]
    omega
  · rw [Values_represents e2 (by rw [List.length_eraseIdx, if_pos hi]; omega), e3]
    simp

theorem remove_in_range_witness :
    WellFormed sampleThree ∧
      ∃ v vs l', Get sampleThree 1 = .ok (some v) ∧ Remove sampleThree 1 = .ok (some v, l') ∧
        Size l' = Size sampleThree - 1 ∧ Values 3 sampleThree = .ok vs ∧
        Values 3 l' = .ok (vs.eraseIdx (1 : Int).toNat) ∧ WellFormed l' :=
  ⟨⟨[2, 1, 0], by decide⟩,
    remove_in_range sampleThree ⟨[2, 1, 0], by decide⟩ 1 (by decide) (by decide) 3 (by decide)⟩

/-- C6: the code at the failing input.  On the list holding only 7, `Get(-1)`
returns 7 and `Remove(-1)` removes and returns 7; neither returns `nil`. -/
theorem negative_index_reaches_head :
    Get (AddFirst NewLinkedList (7 : Nat)) (-1) = .ok (some 7) ∧
      Remove (AddFirst NewLinkedList (7 : Nat)) (-1) =
        .ok (some 7, { head := none, tail := none, size := 0,
                       mem := [{ next := none, prev := none, Data := 7 }] }) :=
  ⟨rfl, rfl⟩

/-- C7: the code at the failing input.  On the empty list `Get(-1)` and
`Remove(-1)` read a field of the `nil` head and panic. -/
theorem negative_index_on_empty_panics :
    Get (NewLinkedList : LinkedList Nat) (-1) = .error .nilDeref ∧
      Remove (NewLinkedList : LinkedList Nat) (-1) = .error .nilDeref :=
  ⟨rfl, rfl⟩

/-- C8: a call of `RemoveFirst`, `RemoveLast` or `Remove` that returns `nil`
leaves head, tail, size and the store of all nodes as they were.  (`Get`
writes nothing at all: its embedding has no list to return.) -/
theorem nil_result_leaves_list (l l' : LinkedList T) (index : Int)
    (h : RemoveFirst l = .ok (none, l') ∨ RemoveLast l = .ok (none, l') ∨
      Remove l index = .ok (none, l')) : l' = l := by
  rcases h with h | h | h
  · unfold RemoveFirst at h
    cases hh : l.head with
    | none => simp only [hh] at h; cases h; rfl
    | some a =>
      simp only [hh] at h
      cases hm : l.mem[a]? with
      | none => simp [hm] at h
      | some nd =>
        simp only [hm] at h
        cases hn : nd.next <;> simp [hn] at h
  · unfold RemoveLast at h
    cases hh : l.tail with
    | none => simp only [hh] at h; cases h; rfl
    | some a =>
      simp only [hh] at h
      cases hm : l.mem[a]? with
      | none => simp [hm] at h
      | some nd =>
        simp only [hm] at h
        cases hn : nd.prev <;> simp [hn] at h
  · unfold Remove at h
    by_cases hge : index ≥ l.size
    · rw [if_pos hge] at h; cases h; rfl
    · rw [if_neg hge] at h
      cases ha : advance l.mem index.toNat l.head with
      | error e => simp [ha] at h
      | ok cur =>
        simp only [ha] at h
        cases h1 : load l.mem cur with
        | error e => simp [h1] at h
        | ok nd =>
          simp only [h1] at h
          split at h
          · simp at h
          · split at h
            · simp at h
            · simp at h

theorem nil_result_leaves_list_witness :
    (RemoveFirst (NewLinkedList : LinkedList Nat) = .ok (none, NewLinkedList) ∧
      (NewLinkedList : LinkedList Nat) = NewLinkedList) ∧
    (RemoveLast (NewLinkedList : LinkedList Nat) = .ok (none, NewLinkedList) ∧
      (NewLinkedList : LinkedList Nat) = NewLinkedList) ∧
    (Remove sampleTwo 2 = .ok (none, sampleTwo) ∧ sampleTwo = sampleTwo) :=
  ⟨⟨rfl, nil_result_leaves_list NewLinkedList NewLinkedList 0 (Or.inl rfl)⟩,
    ⟨rfl, nil_result_leaves_list NewLinkedList NewLinkedList 0 (Or.inr (Or.inl rfl))⟩,
    ⟨rfl, nil_result_leaves_list sampleTwo sampleTwo 2 (Or.inr (Or.inr rfl))⟩⟩

/-- C9: for an index that is `Size()` or more, on any list, the empty one
included, `Get(index)` returns `nil` and `Remove(index)` returns `nil` and
leaves the list as it was. -/
theorem index_past_end (l : LinkedList T) (index : Int) (h : Size l ≤ index) :
    Get l index = .ok none ∧ Remove l index = .ok (none, l) := by
  unfold Size at h
  constructor
  · unfold Get; rw [if_pos h]
  · unfold Remove; rw [if_pos h]

theorem index_past_end_witness :
    Size sampleTwo ≤ 2 ∧ Get sampleTwo 2 = .ok none ∧ Remove sampleTwo 2 = .ok (none, sampleTwo) :=
  ⟨by decide, index_past_end sampleTwo 2 (by decide)⟩

/-- C10: on a well-formed list `IndexOf(v)` and `Contains(v)` return,
`IndexOf(v)` is -1 exactly when `Contains(v)` is false, and when it is not -1
`Get(IndexOf(v))` returns a value, one that is `==` to `v`; where `==` is the
equality of values, that value is `v`. -/
theorem indexOf_contains_get [BEq T] (l : LinkedList T) (h : WellFormed l)
    (fuel : Nat) (hf : Size l ≤ (fuel : Int)) (v : T) :
    ∃ i b, IndexOf fuel l v = .ok i ∧ Contains fuel l v = .ok b ∧
      (i = -1 ↔ b = false) ∧
      (i ≠ -1 → ∃ e, Get l i = .ok (some e) ∧ (e == v) = true) ∧
      (LawfulBEq T → i ≠ -1 → Get l i = .ok (some v)) := by
  rcases h with ⟨ps, hps⟩
  have hfuel := hps.le_fuel hf
  have hget : (contents l.mem ps).any (fun e => e == v) = true →
      ∃ e, Get l (((contents l.mem ps).findIdx (fun e => e == v) : Nat) : Int) = .ok (some e) ∧
        (e == v) = true := by
    intro hany
    rcases findIdx_first (fun e => e == v) _ hany with ⟨hlt, ⟨e, he, hpe⟩, _⟩
    rw [hps.1.length_contents] at hlt
    exact ⟨e, by rw [Get_represents hps hlt, he], hpe⟩
  refine ⟨_, _, IndexOf_represents hps hfuel v, Contains_represents hps hfuel v, ?_, ?_, ?_⟩
  · by_cases hany : (contents l.mem ps).any (fun e => e == v) = true
    · rw [if_pos hany, hany]
      constructor
      · intro e; omega
      · intro e; cases e
    · rw [if_neg hany]
      simp only [true_iff]
      exact Bool.eq_false_iff.mpr hany
  · intro hne
    by_cases hany : (contents l.mem ps).any (fun e => e == v) = true
    · rw [if_pos hany]; exact hget hany
    · rw [if_neg hany] at hne; exact absurd rfl hne
  · intro hlaw hne
    by_cases hany : (contents l.mem ps).any (fun e => e == v) = true
    · rw [if_pos hany]
      rcases hget hany with ⟨e, he, hev⟩
      rw [he, eq_of_beq hev]
    · rw [if_neg hany] at hne; exact absurd rfl hne

theorem indexOf_contains_get_witness :
    WellFormed sampleThree ∧
      ∃ i b, IndexOf 3 sampleThree 21 = .ok i ∧ Contains 3 sampleThree 21 = .ok b ∧
        (i = -1 ↔ b = false) ∧
        (i ≠ -1 → ∃ e, Get sampleThree i = .ok (some e) ∧ (e == 21) = true) ∧
        (LawfulBEq Nat → i ≠ -1 → Get sampleThree i = .ok (some 21)) :=
  ⟨⟨[2, 1, 0], by decide⟩,
    indexOf_contains_get sampleThree ⟨[2, 1, 0], by decide⟩ 3 (by decide) 21⟩

/-- C11: after `Clear()`, on any list, `IsEmpty()` is true, `Size()` is 0,
`Values()` is empty, and `PeekFirst`, `PeekLast`, `RemoveFirst` and
`RemoveLast` all return `nil`, the two removals leaving the list as it is. -/
theorem after_clear [Inhabited T] (l : LinkedList T) (fuel : Nat) :
    IsEmpty (Clear l) = true ∧ Size (Clear l) = 0 ∧ Values fuel (Clear l) = .ok [] ∧
      PeekFirst (Clear l) = .ok none ∧ PeekLast (Clear l) = .ok none ∧
      RemoveFirst (Clear l) = .ok (none, Clear l) ∧
      RemoveLast (Clear l) = .ok (none, Clear l) := by
  refine ⟨rfl, rfl, ?_, rfl, rfl, rfl, rfl⟩
  cases fuel <;> rfl

/-- C12: on a well-formed list `AddFirst(v)` makes `Values()` the old one with
`v` in front and `AddLast(v)` makes it the old one with `v` at the end; both
return a well-formed list whose `Size()` is one more, and on an empty list the
new element is what `PeekFirst` and `PeekLast` both return. -/
theorem add_at_ends [Inhabited T] (l : LinkedList T) (h : WellFormed l) (data : T)
    (fuel : Nat) (hf : Size l ≤ (fuel : Int)) :
    ∃ vs, Values fuel l = .ok vs ∧
      Values (fuel + 1) (AddFirst l data) = .ok (data :: vs) ∧
      Values (fuel + 1) (AddLast l data) = .ok (vs ++ [data]) ∧
      Size (AddFirst l data) = Size l + 1 ∧ Size (AddLast l data) = Size l + 1 ∧
      WellFormed (AddFirst l data) ∧ WellFormed (AddLast l data) ∧
      (Size l = 0 →
        PeekFirst (AddFirst l data) = .ok (some data) ∧
        PeekLast (AddFirst l data) = .ok (some data) ∧
        PeekFirst (AddLast l data) = .ok (some data) ∧
        PeekLast (AddLast l data) = .ok (some data)) := by
  rcases h with ⟨ps, hps⟩
  have hfuel := hps.le_fuel hf
  rcases Represents_AddFirst hps data with ⟨hF, cF⟩
  rcases Represents_AddLast hps data with ⟨hL, cL⟩
  refine ⟨contents l.mem ps, Values_represents hps hfuel, ?_, ?_, rfl, rfl, ⟨_, hF⟩, ⟨_, hL⟩, ?_⟩
  · rw [Values_represents hF (by simpa using hfuel), cF]
  · rw [Values_represents hL (by simpa using hfuel), cL]
  · intro h0
    have hnil : contents l.mem ps = [] := by
      have a := hps.1.length_contents
      have b := hps.2.2.2
      unfold Size at h0
      exact List.length_eq_zero.mp (by omega)
    rw [PeekFirst_represents hF, PeekLast_represents hF, PeekFirst_represents hL,
      PeekLast_represents hL, cF, cL, hnil]
    exact ⟨rfl, rfl, rfl, rfl⟩

theorem add_at_ends_witness :
    (WellFormed sampleTwo ∧
      ∃ vs, Values 2 sampleTwo = .ok vs ∧
        Values (2 + 1) (AddFirst sampleTwo 22) = .ok (22 :: vs) ∧
        Values (2 + 1) (AddLast sampleTwo 22) = .ok (vs ++ [22]) ∧
        Size (AddFirst sampleTwo 22) = Size sampleTwo + 1 ∧
        Size (AddLast sampleTwo 22) = Size sampleTwo + 1 ∧
        WellFormed (AddFirst sampleTwo 22) ∧ WellFormed (AddLast sampleTwo 22) ∧
        (Size sampleTwo = 0 →
          PeekFirst (AddFirst sampleTwo 22) = .ok (some 22) ∧
          PeekLast (AddFirst sampleTwo 22) = .ok (some 22) ∧
          PeekFirst (AddLast sampleTwo 22) = .ok (some 22) ∧
          PeekLast (AddLast sampleTwo 22) = .ok (some 22))) ∧
    (WellFormed (NewLinkedList : LinkedList Nat) ∧
      Size (NewLinkedList : LinkedList Nat) = 0 ∧
      ∃ vs, Values 0 (NewLinkedList : LinkedList Nat) = .ok vs ∧
        Values (0 + 1) (AddFirst NewLinkedList 22) = .ok (22 :: vs) ∧
        Values (0 + 1) (AddLast NewLinkedList 22) = .ok (vs ++ [22]) ∧
        Size (AddFirst (NewLinkedList : LinkedList Nat) 22) = Size (NewLinkedList : LinkedList Nat) + 1 ∧
        Size (AddLast (NewLinkedList : LinkedList Nat) 22) = Size (NewLinkedList : LinkedList Nat) + 1 ∧
        WellFormed (AddFirst (NewLinkedList : LinkedList Nat) 22) ∧
        WellFormed (AddLast (NewLinkedList : LinkedList Nat) 22) ∧
        (Size (NewLinkedList : LinkedList Nat) = 0 →
          PeekFirst (AddFirst (NewLinkedList : LinkedList Nat) 22) = .ok (some 22) ∧
          PeekLast (AddFirst (NewLinkedList : LinkedList Nat) 22) = .ok (some 22) ∧
          PeekFirst (AddLast (NewLinkedList : LinkedList Nat) 22) = .ok (some 22) ∧
          PeekLast (AddLast (NewLinkedList : LinkedList Nat) 22) = .ok (some 22))) :=
  ⟨⟨⟨[1, 0], by decide⟩, add_at_ends sampleTwo ⟨[1, 0], by decide⟩ 22 2 (by decide)⟩,
    ⟨⟨[], by decide⟩, rfl, add_at_ends NewLinkedList ⟨[], by decide⟩ 22 0 (by decide)⟩⟩

/-- C13: on a well-formed list `RemoveFirst()` returns the first entry of
`Values()`, `nil` when there is none, and leaves `Values()` without it;
`RemoveLast()` returns the last entry, `nil` when there is none, and leaves
`Values()` without it. -/
theorem remove_at_ends [Inhabited T] (l : LinkedList T) (h : WellFormed l) (fuel : Nat)
    (hf : Size l ≤ (fuel : Int)) :
    ∃ vs l1 l2, Values fuel l = .ok vs ∧ (vs.length : Int) = Size l ∧
      RemoveFirst l = .ok (vs.head?, l1) ∧ Values fuel l1 = .ok vs.tail ∧
      RemoveLast l = .ok (vs.getLast?, l2) ∧ Values fuel l2 = .ok vs.dropLast := by
  rcases h with ⟨ps, hps⟩
  have hfuel := hps.le_fuel hf
  have hlen : ((contents l.mem ps).length : Int) = Size l := by
    rw [hps.1.length_contents]; exact hps.2.2.2.symm
  by_cases hpos : 0 < ps.length
  · rcases Represents_RemoveFirst hps hpos with ⟨l1, e1, r1, c1⟩
    rcases Represents_RemoveLast hps hpos with ⟨l2, e2, r2, c2⟩
    refine ⟨contents l.mem ps, l1, l2, Values_represents hps hfuel, hlen, e1, ?_, e2, ?_⟩
    · rw [Values_represents r1 (by simp; omega), c1]
    · rw [Values_represents r2 (by simp; omega), c2]
  · have hnil : ps = [] := List.length_eq_zero.mp (by omega)
    subst hnil
    refine ⟨contents l.mem [], l, l, Values_represents hps hfuel, hlen, ?_, ?_, ?_, ?_⟩
    · rw [RemoveFirst_nil hps]; rfl
    · rw [Values_represents hps hfuel]; rfl
    · rw [RemoveLast_nil hps]; rfl
    · rw [Values_represents hps hfuel]; rfl

theorem remove_at_ends_witness :
    WellFormed sampleTwo ∧
      (∃ l1 l2, RemoveFirst sampleTwo = .ok (some 21, l1) ∧ PeekFirst l1 = .ok (some 20) ∧
        RemoveLast l1 = .ok (some 20, l2) ∧ Size l2 = 0) ∧
      ∃ vs l1 l2, Values 2 sampleTwo = .ok vs ∧ (vs.length : Int) = Size sampleTwo ∧
        RemoveFirst sampleTwo = .ok (vs.head?, l1) ∧ Values 2 l1 = .ok vs.tail ∧
        RemoveLast sampleTwo = .ok (vs.getLast?, l2) ∧ Values 2 l2 = .ok vs.dropLast :=
  ⟨⟨[1, 0], by decide⟩, ⟨_, _, rfl, rfl, rfl, rfl⟩,
    remove_at_ends sampleTwo ⟨[1, 0], by decide⟩ 2 (by decide)⟩

/-- C14: on a well-formed list and for an index from 0 to `Size()` - 1,
`Get(index)` returns a value, the entry of `Values()` at that position.  (`Get`
writes nothing: its embedding has no list to return.) -/
theorem get_in_range [Inhabited T] (l : LinkedList T) (h : WellFormed l) (index : Int)
    (h0 : 0 ≤ index) (h1 : index < Size l) (fuel : Nat) (hf : Size l ≤ (fuel : Int)) :
    ∃ vs v, Values fuel l = .ok vs ∧ vs[index.toNat]? = some v ∧
      Get l index = .ok (some v) := by
  rcases h with ⟨ps, hps⟩
  have hfuel := hps.le_fuel hf
  obtain ⟨i, rfl⟩ := Int.eq_ofNat_of_zero_le h0
  have hi : i < ps.length := by
    have := hps.2.2.2
    unfold Size at h1
    omega
  have hic : i < (contents l.mem ps).length := by rw [hps.1.length_contents]; exact hi
  refine ⟨contents l.mem ps, (contents l.mem ps)[i], Values_represents hps hfuel, ?_, ?_⟩
  · rw [Int.toNat_ofNat, List.getElem?_eq_getElem hic]
  · rw [Get_represents hps hi, List.getElem?_eq_getElem hic]

theorem get_in_range_witness :
    WellFormed sampleThree ∧
      ∃ vs v, Values 3 sampleThree = .ok vs ∧ vs[(2 : Int).toNat]? = some v ∧
        Get sampleThree 2 = .ok (some v) :=
  ⟨⟨[2, 1, 0], by decide⟩,
    get_in_range sampleThree ⟨[2, 1, 0], by decide⟩ 2 (by decide) (by decide) 3 (by decide)⟩

/-- C15: on a well-formed list `PeekFirst()` returns the first entry of
`Values()` and `PeekLast()` the last, and each returns `nil` exactly when the
list is empty.  (Neither writes anything: their embeddings have no list to
return.) -/
theorem peek_at_ends [Inhabited T] (l : LinkedList T) (h : WellFormed l) (fuel : Nat)
    (hf : Size l ≤ (fuel : Int)) :
    ∃ vs, Values fuel l = .ok vs ∧
      PeekFirst l = .ok vs.head? ∧ PeekLast l = .ok vs.getLast? ∧
      (vs.head? = none ↔ IsEmpty l = true) ∧ (vs.getLast? = none ↔ IsEmpty l = true) := by
  rcases h with ⟨ps, hps⟩
  have hfuel := hps.le_fuel hf
  have hlen : ((contents l.mem ps).length : Int) = l.size := by
    rw [hps.1.length_contents]; exact hps.2.2.2.symm
  have hempty : IsEmpty l = true ↔ contents l.mem ps = [] := by
    simp only [IsEmpty, Size, beq_iff_eq]
    constructor
    · intro e
      exact List.length_eq_zero.mp (by omega)
    · intro e
      rw [e] at hlen
      simpa using hlen.symm
  refine ⟨contents l.mem ps, Values_represents hps hfuel, PeekFirst_represents hps,
    PeekLast_represents hps, ?_, ?_⟩
  · rw [hempty]; exact List.head?_eq_none_iff
  · rw [hempty]; exact List.getLast?_eq_none_iff

theorem peek_at_ends_witness :
    WellFormed sampleTwo ∧
      (Size sampleTwo = 2 ∧ PeekFirst sampleTwo = .ok (some 21) ∧
        PeekLast sampleTwo = .ok (some 20)) ∧
      ∃ vs, Values 2 sampleTwo = .ok vs ∧
        PeekFirst sampleTwo = .ok vs.head? ∧ PeekLast sampleTwo = .ok vs.getLast? ∧
        (vs.head? = none ↔ IsEmpty sampleTwo = true) ∧
        (vs.getLast? = none ↔ IsEmpty sampleTwo = true) :=
  ⟨⟨[1, 0], by decide⟩, ⟨rfl, rfl, rfl⟩,
    peek_at_ends sampleTwo ⟨[1, 0], by decide⟩ 2 (by decide)⟩

/-- C16: on a well-formed list `ForEach` returns true after calling the visitor
once on each entry of `Values()`, from the first to the last, and
`ForEachReverse` returns true after calling it once on each entry from the last
to the first; a visitor that records its arguments ends with `Values()`, or its
reversal.  (Neither writes to the list.) -/
theorem forEach_visits [Inhabited T] {σ : Type} (l : LinkedList T) (h : WellFormed l)
    (fuel : Nat) (hf : Size l ≤ (fuel : Int)) (callback : T → σ → σ) (s : σ) :
    ∃ vs, Values fuel l = .ok vs ∧
      ForEach fuel l callback s = .ok (true, vs.foldl (fun acc v => callback v acc) s) ∧
      ForEachReverse fuel l callback s =
        .ok (true, vs.reverse.foldl (fun acc v => callback v acc) s) ∧
      ForEach fuel l collect [] = .ok (true, vs) ∧
      ForEachReverse fuel l collect [] = .ok (true, vs.reverse) := by
  rcases h with ⟨ps, hps⟩
  have hfuel := hps.le_fuel hf
  refine ⟨contents l.mem ps, Values_represents hps hfuel,
    ForEach_represents hps hfuel callback s, ForEachReverse_represents hps hfuel callback s,
    ?_, ?_⟩
  · rw [ForEach_represents hps hfuel, foldl_collect]; simp
  · rw [ForEachReverse_represents hps hfuel, foldl_collect]; simp

theorem forEach_visits_witness :
    WellFormed sampleThree ∧
      ∃ vs, Values 3 sampleThree = .ok vs ∧
        ForEach 3 sampleThree (fun v acc => acc + v) 0 =
          .ok (true, vs.foldl (fun acc v => acc + v) 0) ∧
        ForEachReverse 3 sampleThree (fun v acc => acc + v) 0 =
          .ok (true, vs.reverse.foldl (fun acc v => acc + v) 0) ∧
        ForEach 3 sampleThree collect [] = .ok (true, vs) ∧
        ForEachReverse 3 sampleThree collect [] = .ok (true, vs.reverse) :=
  ⟨⟨[2, 1, 0], by decide⟩,
    forEach_visits sampleThree ⟨[2, 1, 0], by decide⟩ 3 (by decide) (fun v acc => acc + v) 0⟩

/-- C17, as amended: on a well-formed list `Contains(v)` returns, and it is
true exactly when some entry of `Values()` is `==` to `v`; where `==` is the
equality of values, it is true exactly when `v` is an entry of `Values()`. -/
theorem contains_iff_some_beq [Inhabited T] [BEq T] (l : LinkedList T) (h : WellFormed l)
    (fuel : Nat) (hf : Size l ≤ (fuel : Int)) (v : T) :
    ∃ vs b, Values fuel l = .ok vs ∧ Contains fuel l v = .ok b ∧
      (b = true ↔ ∃ e ∈ vs, (e == v) = true) ∧
      (LawfulBEq T → (b = true ↔ v ∈ vs)) := by
  rcases h with ⟨ps, hps⟩
  have hfuel := hps.le_fuel hf
  refine ⟨_, _, Values_represents hps hfuel, Contains_represents hps hfuel v, ?_, ?_⟩
  · exact List.any_eq_true
  · intro hlaw
    exact any_beq_iff_mem _ v

theorem contains_iff_some_beq_witness :
    WellFormed samplePeople ∧
      (Contains 3 samplePeople { name := "Muhammad", age := 20 } = .ok true ∧
        Contains 3 samplePeople { name := "Muhammad", age := 21 } = .ok false) ∧
      ∃ vs b, Values 3 samplePeople = .ok vs ∧
        Contains 3 samplePeople { name := "Muhammad", age := 20 } = .ok b ∧
        (b = true ↔ ∃ e ∈ vs, (e == ({ name := "Muhammad", age := 20 } : person)) = true) ∧
        (LawfulBEq person → (b = true ↔ ({ name := "Muhammad", age := 20 } : person) ∈ vs)) :=
  ⟨⟨[2, 1, 0], by decide⟩, ⟨rfl, rfl⟩,
    contains_iff_some_beq samplePeople ⟨[2, 1, 0], by decide⟩ 3 (by decide)
      { name := "Muhammad", age := 20 }⟩

/-- Counterexample to C17 as it is written: on a `LinkedList[float64]`, right
after `AddFirst(NaN)` the list is well-formed and `NaN` is the one entry of
`Values()`, inserted and never removed, and `Contains(NaN)` is false. -/
theorem contains_misses_inserted_NaN :
    WellFormed sampleNaN ∧ Values 1 sampleNaN = .ok [float64.NaN] ∧
      float64.NaN ∈ [float64.NaN] ∧ Contains 1 sampleNaN float64.NaN = .ok false :=
  ⟨⟨[0], by decide⟩, rfl, List.mem_singleton.mpr rfl, rfl⟩

/-- C18: on a well-formed list `IndexOf(v)` returns; it is -1 when no entry of
`Values()` is `==` to `v`, and otherwise it is the position of the first entry
that is: it lies from 0 to `Size()` - 1, the entry there is `==` to `v`, and no
entry before it is.  Where `==` is the equality of values, that reads with
`v` itself: -1 when `v` is no entry, otherwise the first position holding
`v`. -/
theorem indexOf_first_match [Inhabited T] [BEq T] (l : LinkedList T)
    (h : WellFormed l) (fuel : Nat) (hf : Size l ≤ (fuel : Int)) (v : T) :
    ∃ vs i, Values fuel l = .ok vs ∧ IndexOf fuel l v = .ok i ∧
      ((∀ e ∈ vs, (e == v) = false) → i = -1) ∧
      ((∃ e ∈ vs, (e == v) = true) → 0 ≤ i ∧ i < Size l ∧
        (∃ e, vs[i.toNat]? = some e ∧ (e == v) = true) ∧
        ∀ j e, j < i.toNat → vs[j]? = some e → (e == v) = false) ∧
      (i ≠ -1 → 0 ≤ i ∧ i < Size l) ∧
      (LawfulBEq T →
        (v ∉ vs → i = -1) ∧
        (v ∈ vs → 0 ≤ i ∧ i < Size l ∧ vs[i.toNat]? = some v ∧
          ∀ j, j < i.toNat → vs[j]? ≠ some v)) := by
  rcases h with ⟨ps, hps⟩
  have hfuel := hps.le_fuel hf
  have hlen : ((contents l.mem ps).length : Int) = Size l := by
    rw [hps.1.length_contents]; exact hps.2.2.2.symm
  have hfound : (contents l.mem ps).any (fun e => e == v) = true →
      (0 : Int) ≤ ((contents l.mem ps).findIdx (fun e => e == v) : Nat) ∧
      (((contents l.mem ps).findIdx (fun e => e == v) : Nat) : Int) < Size l ∧
      (∃ e, (contents l.mem ps)[(contents l.mem ps).findIdx (fun e => e == v)]? = some e ∧
        (e == v) = true) ∧
      ∀ j e, j < (contents l.mem ps).findIdx (fun e => e == v) →
        (contents l.mem ps)[j]? = some e → (e == v) = false := by
    intro hany
    rcases findIdx_first (fun e => e == v) _ hany with ⟨hlt, hat, hbefore⟩
    exact ⟨Int.ofNat_nonneg _, by omega, hat, hbefore⟩
  refine ⟨_, _, Values_represents hps hfuel, IndexOf_represents hps hfuel v, ?_, ?_, ?_, ?_⟩
  · intro hall
    have hany : ¬ (contents l.mem ps).any (fun e => e == v) = true := by
      intro hany
      rcases List.any_eq_true.mp hany with ⟨e, he, hev⟩
      rw [hall e he] at hev
      cases hev
    rw [if_neg hany]
  · intro hex
    have hany : (contents l.mem ps).any (fun e => e == v) = true := List.any_eq_true.mpr hex
    rw [if_pos hany, Int.toNat_ofNat]
    exact hfound hany
  · intro hne
    by_cases hany : (contents l.mem ps).any (fun e => e == v) = true
    · rw [if_pos hany]; exact ⟨(hfound hany).1, (hfound hany).2.1⟩
    · rw [if_neg hany] at hne; exact absurd rfl hne
  · intro hlaw
    constructor
    · intro hm
      have hany : ¬ (contents l.mem ps).any (fun e => e == v) = true :=
        fun hany => hm ((any_beq_iff_mem _ v).mp hany)
      rw [if_neg hany]
    · intro hm
      have hany : (contents l.mem ps).any (fun e => e == v) = true :=
        (any_beq_iff_mem _ v).mpr hm
      rw [if_pos hany, Int.toNat_ofNat]
      rcases hfound hany with ⟨h0, h1, ⟨e, he, hev⟩, hbefore⟩
      refine ⟨h0, h1, by rw [he, eq_of_beq hev], ?_⟩
      intro j hj hjv
      have := hbefore j v hj hjv
      simp at this

theorem indexOf_first_match_witness :
    WellFormed sampleThree ∧ IndexOf 3 sampleThree 20 = .ok 2 ∧
      ∃ vs i, Values 3 sampleThree = .ok vs ∧ IndexOf 3 sampleThree 20 = .ok i ∧
        ((∀ e ∈ vs, (e == 20) = false) → i = -1) ∧
        ((∃ e ∈ vs, (e == 20) = true) → 0 ≤ i ∧ i < Size sampleThree ∧
          (∃ e, vs[i.toNat]? = some e ∧ (e == 20) = true) ∧
          ∀ j e, j < i.toNat → vs[j]? = some e → (e == 20) = false) ∧
        (i ≠ -1 → 0 ≤ i ∧ i < Size sampleThree) ∧
        (LawfulBEq Nat →
          ((20 : Nat) ∉ vs → i = -1) ∧
          ((20 : Nat) ∈ vs → 0 ≤ i ∧ i < Size sampleThree ∧ vs[i.toNat]? = some 20 ∧
            ∀ j, j < i.toNat → vs[j]? ≠ some 20)) :=
  ⟨⟨[2, 1, 0], by decide⟩, rfl,
    indexOf_first_match sampleThree ⟨[2, 1, 0], by decide⟩ 3 (by decide) 20⟩

/-- C19: on a well-formed list `String()` returns the renderings of the
entries of `Values()`, in order, joined by the separator " -> ": it is the
concatenation of the renderings with one separator between each two
neighbours, so of `Size()` renderings and `Size()` - 1 separators when the list
is not empty, and it is the empty string when the list is empty. -/
theorem string_joins_values [Inhabited T] (l : LinkedList T) (h : WellFormed l) (fuel : Nat)
    (hf : Size l ≤ (fuel : Int)) (render : T → String) :
    ∃ vs, Values fuel l = .ok vs ∧
      LinkedList.String fuel render l = .ok (String.intercalate " -> " (vs.map render)) ∧
      LinkedList.String fuel render l =
        .ok (String.join (List.intersperse " -> " (vs.map render))) ∧
      (0 < Size l →
        ((List.intersperse " -> " (vs.map render)).length : Int) = Size l + (Size l - 1)) ∧
      (Size l = 0 → LinkedList.String fuel render l = .ok "") := by
  rcases h with ⟨ps, hps⟩
  have hfuel := hps.le_fuel hf
  have hlen : ((contents l.mem ps).length : Int) = Size l := by
    rw [hps.1.length_contents]; exact hps.2.2.2.symm
  refine ⟨contents l.mem ps, Values_represents hps hfuel, String_represents hps hfuel render,
    ?_, ?_, ?_⟩
  · rw [String_represents hps hfuel render, intercalate_eq_join]
  · intro hpos
    have hne : (contents l.mem ps).map render ≠ [] := by
      intro e
      have := congrArg List.length e
      simp only [List.length_map, List.length_nil] at this
      omega
    have := length_intersperse_add_one " -> " _ hne
    simp only [List.length_map] at this
    omega
  · intro h0
    have hnil : contents l.mem ps = [] := List.length_eq_zero.mp (by omega)
    rw [String_represents hps hfuel render, hnil]
    rfl

theorem string_joins_values_witness :
    WellFormed sampleThree ∧
      LinkedList.String 3 (fun n : Nat => toString n) sampleThree = .ok "22 -> 21 -> 20" ∧
      ∃ vs, Values 3 sampleThree = .ok vs ∧
        LinkedList.String 3 (fun n : Nat => toString n) sampleThree =
          .ok (String.intercalate " -> " (vs.map (fun n : Nat => toString n))) ∧
        LinkedList.String 3 (fun n : Nat => toString n) sampleThree =
          .ok (String.join (List.intersperse " -> " (vs.map (fun n : Nat => toString n)))) ∧
        (0 < Size sampleThree →
          ((List.intersperse " -> " (vs.map (fun n : Nat => toString n))).length : Int) =
            Size sampleThree + (Size sampleThree - 1)) ∧
        (Size sampleThree = 0 →
          LinkedList.String 3 (fun n : Nat => toString n) sampleThree = .ok "") :=
  ⟨⟨[2, 1, 0], by decide⟩, rfl,
    string_joins_values sampleThree ⟨[2, 1, 0], by decide⟩ 3 (by decide)
      (fun n : Nat => toString n)⟩

end Claims

end Collections
